import Mathlib

/-!
Verification of the Graph Intelligence & Investigation Pipeline of the
localwebb-cloud repository.  The Python sources under `src/api` and
`src/scripts` are shallowly embedded below: pure fragments become Lean
functions, external collaborators (text model, vector index, relational
store) become explicit oracle inputs, and the streamed pipeline becomes a
pure function from those oracles to the emitted event list.
-/

namespace LocalWebb

/-! ## Python string primitives

`str.strip`, `str.lower`, and the regexes `[^a-z0-9\s]` / `\s+` used by
`graph_ops._normalize` and `investigator._add_chunks`.  Python `\s` on ASCII
text is the six characters below; `str.lower` agrees with `Char.toLower`
on ASCII input. -/

def pyIsSpace (c : Char) : Bool :=
  c == ' ' || c == '\t' || c == '\n' || c == '\r' || c == '\x0b' || c == '\x0c'

/-- Python `str.strip()`: drop leading and trailing whitespace. -/
def pyStripL (l : List Char) : List Char :=
  ((l.dropWhile pyIsSpace).reverse.dropWhile pyIsSpace).reverse

/-- Characters kept by the regex deletion `re.sub(r'[^a-z0-9\s]', '', s)`. -/
def normKeep (c : Char) : Bool :=
  ('a' ≤ c && c ≤ 'z') || ('0' ≤ c && c ≤ '9') || pyIsSpace c

/-- `graph_ops._normalize`: `re.sub(r'[^a-z0-9\s]', '', s.lower()).strip()`. -/
def pyNormalize (s : String) : String :=
  ⟨pyStripL ((s.data.map Char.toLower).filter normKeep)⟩

/-- `re.sub(r'\s+', ' ', ·)`: collapse each maximal whitespace run to one space. -/
def collapseWs : List Char → List Char
  | [] => []
  | [c] => if pyIsSpace c then [' '] else [c]
  | c :: d :: rest =>
    if pyIsSpace c && pyIsSpace d then collapseWs (d :: rest)
    else (if pyIsSpace c then ' ' else c) :: collapseWs (d :: rest)

/-- `needle` is a prefix of `hay` (Lean spelling of Python `str.startswith`). -/
def isLead : List Char → List Char → Bool
  | [], _ => true
  | _ :: _, [] => false
  | a :: as, b :: bs => a == b && isLead as bs

/-- Python `needle in hay` on strings: contiguous-substring test. -/
def hasSub (hay needle : List Char) : Bool :=
  match hay with
  | [] => needle.isEmpty
  | _ :: t => isLead needle hay || hasSub t needle

/-- Python `s.replace(" ", "_")`. -/
def spaceToUnderscore (s : String) : String :=
  ⟨s.data.map (fun c => if c == ' ' then '_' else c)⟩

/-! ## Graph data model (`graph_ops.py`)

Cytoscape-style elements: a node is `{"id": ..., "data": {"label": ...,
"aliases": [...]}}` (label and aliases may be absent), an edge is
`{"source": ..., "target": ..., "label"?: ..., "data"?: {...}}`. -/

structure GEdgeData where
  predicate : Option String
  evidence_text : Option String
  source_filename : Option String
  confidence : Option String
deriving DecidableEq, Repr

structure GEdge where
  source : String
  target : String
  label : Option String
  data : Option GEdgeData
deriving DecidableEq, Repr

structure GNode where
  id : String
  label : Option String
  aliases : List String
deriving DecidableEq, Repr

structure GraphData where
  nodes : List GNode
  edges : List GEdge
deriving DecidableEq, Repr

/-! ## Entity resolution (`graph_ops.find_entity_id`) -/

/-- Rule 1: exact match on the normalized label (absent label reads as `""`). -/
def exactRule (nameNorm : String) (n : GNode) : Bool :=
  pyNormalize (n.label.getD "") == nameNorm

/-- Rule 2: normalized query is a substring of the normalized label or vice versa. -/
def substrRule (nameNorm : String) (n : GNode) : Bool :=
  let labelNorm := pyNormalize (n.label.getD "")
  hasSub labelNorm.data nameNorm.data || hasSub nameNorm.data labelNorm.data

/-- Rule 3: some alias matches exactly or contains the normalized query. -/
def aliasRule (nameNorm : String) (n : GNode) : Bool :=
  n.aliases.any (fun a =>
    pyNormalize a == nameNorm || hasSub (pyNormalize a).data nameNorm.data)

/-- Rule 4: normalized id equals the normalized query with spaces replaced by `_`. -/
def idRule (nameNorm : String) (n : GNode) : Bool :=
  pyNormalize n.id == spaceToUnderscore nameNorm

/-- `graph_ops.find_entity_id`: four sequential first-match loops. -/
def find_entity_id (g : GraphData) (name : String) : Option String :=
  let nameNorm := pyNormalize name
  match g.nodes.find? (exactRule nameNorm) with
  | some n => some n.id
  | none =>
    match g.nodes.find? (substrRule nameNorm) with
    | some n => some n.id
    | none =>
      match g.nodes.find? (aliasRule nameNorm) with
      | some n => some n.id
      | none =>
        match g.nodes.find? (idRule nameNorm) with
        | some n => some n.id
        | none => none

/-- Any of the four resolution rules. -/
def anyRule (nameNorm : String) (n : GNode) : Bool :=
  exactRule nameNorm n || substrRule nameNorm n || aliasRule nameNorm n || idRule nameNorm n

/-- C3: entity resolution follows strict precedence with no edit-distance
scoring: the first node matching the exact-label rule is returned; failing
that, the first node matching the substring rule; then the alias rule; then
the id rule (normalized query with spaces replaced by underscores); and
`None` is returned exactly when no rule matches any node. -/
theorem find_entity_id_precedence (g : GraphData) (name : String) :
    (∀ n, g.nodes.find? (exactRule (pyNormalize name)) = some n →
      find_entity_id g name = some n.id)
  ∧ (g.nodes.find? (exactRule (pyNormalize name)) = none →
      ∀ n, g.nodes.find? (substrRule (pyNormalize name)) = some n →
        find_entity_id g name = some n.id)
  ∧ (g.nodes.find? (exactRule (pyNormalize name)) = none →
      g.nodes.find? (substrRule (pyNormalize name)) = none →
      ∀ n, g.nodes.find? (aliasRule (pyNormalize name)) = some n →
        find_entity_id g name = some n.id)
  ∧ (g.nodes.find? (exactRule (pyNormalize name)) = none →
      g.nodes.find? (substrRule (pyNormalize name)) = none →
      g.nodes.find? (aliasRule (pyNormalize name)) = none →
      ∀ n, g.nodes.find? (idRule (pyNormalize name)) = some n →
        find_entity_id g name = some n.id)
  ∧ (find_entity_id g name = none ↔
      ∀ n ∈ g.nodes, anyRule (pyNormalize name) n = false) := by
  refine ⟨?_, ?_, ?_, ?_, ?_⟩
  · intro n h1
    simp [find_entity_id, h1]
  · intro h1 n h2
    simp [find_entity_id, h1, h2]
  · intro h1 h2 n h3
    simp [find_entity_id, h1, h2, h3]
  · intro h1 h2 h3 n h4
    simp [find_entity_id, h1, h2, h3, h4]
  · constructor
    · intro h n hn
      cases h1 : g.nodes.find? (exactRule (pyNormalize name)) with
      | some m => simp [find_entity_id, h1] at h
      | none =>
      cases h2 : g.nodes.find? (substrRule (pyNormalize name)) with
      | some m => simp [find_entity_id, h1, h2] at h
      | none =>
      cases h3 : g.nodes.find? (aliasRule (pyNormalize name)) with
      | some m => simp [find_entity_id, h1, h2, h3] at h
      | none =>
      cases h4 : g.nodes.find? (idRule (pyNormalize name)) with
      | some m => simp [find_entity_id, h1, h2, h3, h4] at h
      | none =>
        have e1 := List.find?_eq_none.mp h1 n hn
        have e2 := List.find?_eq_none.mp h2 n hn
        have e3 := List.find?_eq_none.mp h3 n hn
        have e4 := List.find?_eq_none.mp h4 n hn
        simp only [Bool.not_eq_true] at e1 e2 e3 e4
        simp [anyRule, e1, e2, e3, e4]
    · intro h
      have efalse : ∀ n ∈ g.nodes, exactRule (pyNormalize name) n = false := by
        intro n hn
        have := h n hn
        simp [anyRule] at this
        exact this.1.1.1
      have sfalse : ∀ n ∈ g.nodes, substrRule (pyNormalize name) n = false := by
        intro n hn
        have := h n hn
        simp [anyRule] at this
        exact this.1.1.2
      have afalse : ∀ n ∈ g.nodes, aliasRule (pyNormalize name) n = false := by
        intro n hn
        have := h n hn
        simp [anyRule] at this
        exact this.1.2
      have ifalse : ∀ n ∈ g.nodes, idRule (pyNormalize name) n = false := by
        intro n hn
        have := h n hn
        simp [anyRule] at this
        exact this.2
      have h1 : g.nodes.find? (exactRule (pyNormalize name)) = none := by
        rw [List.find?_eq_none]; intro n hn; simp [efalse n hn]
      have h2 : g.nodes.find? (substrRule (pyNormalize name)) = none := by
        rw [List.find?_eq_none]; intro n hn; simp [sfalse n hn]
      have h3 : g.nodes.find? (aliasRule (pyNormalize name)) = none := by
        rw [List.find?_eq_none]; intro n hn; simp [afalse n hn]
      have h4 : g.nodes.find? (idRule (pyNormalize name)) = none := by
        rw [List.find?_eq_none]; intro n hn; simp [ifalse n hn]
      simp [find_entity_id, h1, h2, h3, h4]

/-- The spec's resolution scenario: a node labeled "Jane Doe" with alias
"J. Doe" next to a node whose id is `jane_doe_2`. -/
def janeGraph : GraphData :=
  { nodes := [ { id := "jane_doe", label := some "Jane Doe", aliases := ["J. Doe"] },
               { id := "jane_doe_2", label := some "Other Person", aliases := [] } ],
    edges := [] }

/-- Witness for C3: the query "jane doe" resolves to the exact-label match. -/
theorem find_entity_id_precedence_witness :
    find_entity_id janeGraph "jane doe" = some "jane_doe" :=
  (find_entity_id_precedence janeGraph "jane doe").1
    { id := "jane_doe", label := some "Jane Doe", aliases := ["J. Doe"] } (by decide)

/-! ## Path finding (`graph_ops._build_adjacency`, `graph_ops.find_paths`)

Paths are lists of `(node_id, edge_that_led_here)` pairs, the first pair
carrying no edge.  The adjacency map is a Python dict of dicts; both dict
levels preserve insertion order, modeled as association lists. -/

abbrev PathL := List (String × Option GEdge)

abbrev QItem := String × PathL

abbrev InnerAdj := List (String × List GEdge)

abbrev Adj := List (String × InnerAdj)

/-- Append an edge under inner key `k2` (`adj[k1].setdefault(k2, []).append(edge)`). -/
def innerAdd (inner : InnerAdj) (k2 : String) (e : GEdge) : InnerAdj :=
  if inner.any (fun q => q.1 == k2) then
    inner.map (fun q => if q.1 == k2 then (q.1, q.2 ++ [e]) else q)
  else inner ++ [(k2, [e])]

/-- Update the inner dict stored under outer key `k1`. -/
def outerAdd (adj : Adj) (k1 k2 : String) (e : GEdge) : Adj :=
  adj.map (fun p => if p.1 == k1 then (p.1, innerAdd p.2 k2 e) else p)

/-- Ensure an outer key exists (`if k not in adj: adj[k] = {}`). -/
def ensureKey (adj : Adj) (k : String) : Adj :=
  if adj.any (fun p => p.1 == k) then adj else adj ++ [(k, [])]

/-- One loop iteration of `_build_adjacency` over an edge. -/
def adjStep (adj : Adj) (e : GEdge) : Adj :=
  let adj1 := ensureKey adj e.source
  let adj2 := ensureKey adj1 e.target
  let adj3 := outerAdd adj2 e.source e.target e
  outerAdd adj3 e.target e.source e

/-- `graph_ops._build_adjacency`: index every edge under both endpoints. -/
def build_adjacency (g : GraphData) : Adj :=
  g.edges.foldl adjStep []

/-- `adj.get(current, {})`. -/
def adjLookup (adj : Adj) (k : String) : InnerAdj :=
  match adj.find? (fun p => p.1 == k) with
  | some p => p.2
  | none => []

/-- `k in adj`. -/
def adjHasKey (adj : Adj) (k : String) : Bool :=
  adj.any (fun p => p.1 == k)

/-- Expansion step of the BFS loop: enqueue every unvisited neighbor with the
first edge between the two nodes.  Inner adjacency lists are nonempty by
construction, so the `[]` case is unreachable. -/
def expandNbrs (inner : InnerAdj) (path : PathL) : List QItem :=
  let visited := path.map Prod.fst
  inner.filterMap (fun nb =>
    if visited.contains nb.1 then none
    else
      match nb.2 with
      | [] => none
      | e :: _ => some (nb.1, path ++ [(nb.1, some e)]))

/-- The `while queue and len(visited_paths) < max_paths` loop of
`graph_ops.find_paths`.  The loop always terminates in Python because every
enqueued path is simple; here it carries a fuel argument that
`find_paths` instantiates with an upper bound on the iteration count. -/
def bfsLoop (adj : Adj) (endId : String) (maxHops maxPaths : Nat) :
    Nat → List QItem → List PathL → List PathL
  | _, [], found => found
  | 0, _ :: _, found => found
  | fuel + 1, (current, path) :: rest, found =>
    if maxPaths ≤ found.length then found
    else if maxHops + 1 < path.length then
      bfsLoop adj endId maxHops maxPaths fuel rest found
    else if current == endId && decide (1 < path.length) then
      bfsLoop adj endId maxHops maxPaths fuel rest (found ++ [path])
    else
      bfsLoop adj endId maxHops maxPaths fuel
        (rest ++ expandNbrs (adjLookup adj current) path) found

/-- Fuel that dominates the BFS iteration count: every enqueued path is a
simple sequence over the (at most `2·|edges|`) adjacency keys, so the number
of loop iterations is below `(2·|edges|+2)^(2·|edges|+2)`. -/
def pathFuel (g : GraphData) : Nat :=
  (2 * g.edges.length + 2) ^ (2 * g.edges.length + 2)

/-- `graph_ops.find_paths`. -/
def find_paths (g : GraphData) (startId endId : String)
    (maxHops : Nat := 4) (maxPaths : Nat := 3) : List PathL :=
  let adj := build_adjacency g
  if !(adjHasKey adj startId) || !(adjHasKey adj endId) then []
  else
    bfsLoop adj endId maxHops maxPaths (pathFuel g) [(startId, [(startId, none)])] []

/-! ## C4: the spec's A–B–C–D chain scenario -/

def eAB : GEdge := { source := "A", target := "B", label := none, data := none }

def eBC : GEdge := { source := "B", target := "C", label := none, data := none }

def eCD : GEdge := { source := "C", target := "D", label := none, data := none }

def chainGraph : GraphData :=
  { nodes := [ { id := "A", label := some "A", aliases := [] },
               { id := "B", label := some "B", aliases := [] },
               { id := "C", label := some "C", aliases := [] },
               { id := "D", label := some "D", aliases := [] } ],
    edges := [eAB, eBC, eCD] }

/-- The single 3-hop path from A to D. -/
def chainPath : PathL :=
  [("A", none), ("B", some eAB), ("C", some eBC), ("D", some eCD)]

/-- C4: on the chain graph A–B–C–D, `find_paths(A, D, maxHops := 4)` returns
exactly one path, of 3 hops, and `find_paths(A, D, maxHops := 2)` returns the
empty list. -/
theorem find_paths_chain_scenario :
    find_paths chainGraph "A" "D" 4 3 = [chainPath]
  ∧ chainPath.length - 1 = 3
  ∧ find_paths chainGraph "A" "D" 2 3 = [] := by
  refine ⟨by decide, rfl, by decide⟩

/-! ## Narrative rendering (`graph_ops.find_paths_narrative`) -/

def emptyEdgeData : GEdgeData :=
  { predicate := none, evidence_text := none, source_filename := none, confidence := none }

/-- `{n["id"]: n.get("data", {}).get("label", n["id"]) for n in nodes}` with
`.get(id, id)` lookup; later dict entries overwrite earlier ones. -/
def nodeLabelMap (g : GraphData) (i : String) : String :=
  match g.nodes.reverse.find? (fun n => n.id == i) with
  | some n => n.label.getD n.id
  | none => i

/-- One hop of the narrative.  In Python a `None` edge would raise inside the
default expression; that case is unreachable because every non-initial path
entry produced by `find_paths` carries an edge. -/
def renderStep (g : GraphData) (cur nxt : String × Option GEdge) : String :=
  let nodeLabel := nodeLabelMap g cur.1
  let nextLabel := nodeLabelMap g nxt.1
  let ed := match nxt.2 with
    | some e => e.data.getD emptyEdgeData
    | none => emptyEdgeData
  let predicate := ed.predicate.getD ((nxt.2.bind GEdge.label).getD "related to")
  let evidence := ed.evidence_text.getD ""
  let source := ed.source_filename.getD ""
  let confidence := ed.confidence.getD "STATED"
  let s1 := s!"  {nodeLabel} --[{predicate}]--> {nextLabel}"
  let s2 := if evidence ≠ "" then s1 ++ "\n    Evidence: \"" ++ evidence ++ "\"" else s1
  let s3 := if source ≠ "" then s2 ++ s!"\n    Source: {source}" else s2
  if confidence == "INFERRED" then s3 ++ " (inferred)" else s3

def renderPath (g : GraphData) (i : Nat) (p : PathL) : String :=
  let steps := (p.zip p.tail).map (fun cn => renderStep g cn.1 cn.2)
  let hops := p.length - 1
  let plural : String := if 1 < hops then "s" else ""
  s!"Path {i + 1} ({hops} hop{plural}):\n" ++ String.intercalate "\n" steps

/-- Python truthiness of the resolver result: `None` and `""` are falsy. -/
def truthyOpt : Option String → Bool
  | none => false
  | some s => !(s == "")

def sameEntityMsg (a b : String) : String :=
  s!"'{a}' and '{b}' refer to the same entity."

/-- `graph_ops.find_paths_narrative`. -/
def find_paths_narrative (g : GraphData) (a b : String) : String :=
  let ida := find_entity_id g a
  let idb := find_entity_id g b
  if !(truthyOpt ida) || !(truthyOpt idb) then
    let missing := (if !(truthyOpt ida) then [s!"'{a}'"] else ([] : List String))
      ++ (if !(truthyOpt idb) then [s!"'{b}'"] else [])
    let ms := String.intercalate ", " missing
    s!"Could not find entities: {ms} in the knowledge graph."
  else
    let ia := ida.getD ""
    let ib := idb.getD ""
    if ia == ib then sameEntityMsg a b
    else
      let paths := find_paths g ia ib 4 3
      if paths.isEmpty then
        s!"No connection found between '{a}' and '{b}' within 4 hops."
      else
        String.intercalate "\n\n" (paths.enum.map (fun ip => renderPath g ip.1 ip.2))

/-! ## C7: start == end -/

/-- Every item produced by `expandNbrs` extends `path` with a node that does
not yet occur on it. -/
theorem mem_expandNbrs {inner : InnerAdj} {path : PathL} {it : QItem}
    (h : it ∈ expandNbrs inner path) :
    it.1 ∉ path.map Prod.fst ∧ ∃ e, it.2 = path ++ [(it.1, some e)] := by
  simp only [expandNbrs, List.mem_filterMap] at h
  obtain ⟨nb, _, heq⟩ := h
  cases hv : (path.map Prod.fst).contains nb.1 with
  | true => rw [hv] at heq; simp at heq
  | false =>
    rw [hv] at heq
    cases hnb : nb.2 with
    | nil => rw [hnb] at heq; simp at heq
    | cons e es =>
      rw [hnb] at heq
      have heq2 : (nb.1, path ++ [(nb.1, some e)]) = it := by simpa using heq
      subst heq2
      constructor
      · simpa using hv
      · exact ⟨e, rfl⟩

/-- If every queued item's path already visits `x`, and no item for node `x`
has a path longer than the initial one, the loop with goal `x` never records
a path. -/
theorem bfsLoop_goal_on_path (adj : Adj) (x : String) (mh mp : Nat) :
    ∀ fuel q found,
      (∀ it ∈ q, x ∈ it.2.map Prod.fst ∧ (it.1 = x → it.2.length ≤ 1)) →
      bfsLoop adj x mh mp fuel q found = found := by
  intro fuel
  induction fuel with
  | zero => intro q found _; cases q <;> simp [bfsLoop]
  | succ fuel ih =>
    intro q found hq
    match q with
    | [] => simp [bfsLoop]
    | (c, p) :: rest =>
      simp only [bfsLoop]
      by_cases h1 : mp ≤ found.length
      · simp [h1]
      · simp only [h1, if_false]
        by_cases h2 : mh + 1 < p.length
        · simp only [h2, if_true]
          exact ih rest found (fun it hit => hq it (List.mem_cons_of_mem _ hit))
        · simp only [h2, if_false]
          have hcp := hq (c, p) (List.mem_cons_self _ _)
          by_cases h3 : (c == x && decide (1 < p.length)) = true
          · exfalso
            simp only [Bool.and_eq_true, beq_iff_eq, decide_eq_true_eq] at h3
            obtain ⟨h3a, h3b⟩ := h3
            have h5 : p.length ≤ 1 := hcp.2 h3a
            omega
          · simp only [h3, Bool.false_eq_true, if_false]
            apply ih
            intro it hit
            rcases List.mem_append.mp hit with hmem | hmem
            · exact hq it (List.mem_cons_of_mem _ hmem)
            · obtain ⟨hnotin, e, hpath⟩ := mem_expandNbrs hmem
              constructor
              · rw [hpath]
                simp only [List.map_append, List.mem_append]
                exact Or.inl hcp.1
              · intro hx
                exact absurd (hx ▸ hcp.1) hnotin

/-- C7 (amended): `find_paths(g, x, x)` is the empty list for every graph and
node id; and when both entity names resolve to the same non-empty node id,
the narrative layer short-circuits with the "refer to the same entity"
message instead of running the path search.  (A node id equal to the empty
string is falsy in Python and hits the could-not-find branch instead.) -/
theorem find_paths_same_entity (g : GraphData) :
    (∀ x mh mp, find_paths g x x mh mp = [])
  ∧ (∀ a b i, find_entity_id g a = some i → find_entity_id g b = some i → i ≠ "" →
      find_paths_narrative g a b = sameEntityMsg a b) := by
  constructor
  · intro x mh mp
    simp only [find_paths]
    cases hk : adjHasKey (build_adjacency g) x with
    | false => simp [hk]
    | true =>
      simp only [hk, Bool.not_true, Bool.or_self, Bool.false_eq_true, if_false]
      apply bfsLoop_goal_on_path
      intro it hit
      simp only [List.mem_singleton] at hit
      subst hit
      exact ⟨by simp, fun _ => by simp⟩
  · intro a b i ha hb hi
    have ht : truthyOpt (some i) = true := by simp [truthyOpt, hi]
    simp [find_paths_narrative, ha, hb, ht]

/-- Witness for C7: both parts applied to concrete inputs. -/
theorem find_paths_same_entity_witness :
    find_paths janeGraph "jane_doe" "jane_doe" 4 3 = []
  ∧ find_paths_narrative janeGraph "jane doe" "Jane Doe." =
      sameEntityMsg "jane doe" "Jane Doe." :=
  ⟨(find_paths_same_entity janeGraph).1 "jane_doe" 4 3,
   (find_paths_same_entity janeGraph).2 "jane doe" "Jane Doe." "jane_doe"
     (by decide) (by decide) (by decide)⟩

/-- A graph whose only node has the empty string as id. -/
def emptyIdGraph : GraphData :=
  { nodes := [{ id := "", label := some "X", aliases := [] }], edges := [] }

/-- Counterexample to C7 as stated: both names resolve to the same node id
(the empty string), yet the narrative returns the could-not-find message,
not the "refer to the same entity" message. -/
theorem narrative_same_entity_counterexample :
    find_entity_id emptyIdGraph "x" = some ""
  ∧ find_paths_narrative emptyIdGraph "x" "x" ≠ sameEntityMsg "x" "x" := by
  constructor
  · decide
  · decide

/-! ## C10: soundness of the BFS search -/

/-- Invariant of a queued item: its path is nonempty, starts at `startId`,
ends at the item's current node, and visits no node twice. -/
def itemOK (startId : String) (it : QItem) : Prop :=
  it.2 ≠ [] ∧ it.2.head?.map Prod.fst = some startId
  ∧ it.2.getLast?.map Prod.fst = some it.1 ∧ (it.2.map Prod.fst).Nodup

/-- Property of a recorded path. -/
def pathOK (startId endId : String) (maxHops : Nat) (p : PathL) : Prop :=
  p.head?.map Prod.fst = some startId ∧ p.getLast?.map Prod.fst = some endId
  ∧ (p.map Prod.fst).Nodup ∧ 2 ≤ p.length ∧ p.length ≤ maxHops + 1

def qlenLE (a b : QItem) : Prop := a.2.length ≤ b.2.length

def lenLE (a b : PathL) : Prop := a.length ≤ b.length

/-- BFS level structure: queued path lengths are nondecreasing and spread over
at most two consecutive levels. -/
def queueOK (q : List QItem) : Prop :=
  List.Pairwise qlenLE q
  ∧ ∀ h ∈ q.head?, ∀ x ∈ q, x.2.length ≤ h.2.length + 1

/-- Recorded paths never get longer than anything still queued. -/
def foundOK (q : List QItem) (found : List PathL) : Prop :=
  List.Pairwise lenLE found ∧ ∀ p ∈ found, ∀ it ∈ q, p.length ≤ it.2.length

theorem expandNbrs_len {inner : InnerAdj} {path : PathL} {it : QItem}
    (h : it ∈ expandNbrs inner path) : it.2.length = path.length + 1 := by
  obtain ⟨-, e, hpath⟩ := mem_expandNbrs h
  rw [hpath]
  simp

theorem expandNbrs_itemOK {startId : String} {inner : InnerAdj} {path : PathL}
    {c : String} (hok : itemOK startId (c, path)) {it : QItem}
    (h : it ∈ expandNbrs inner path) : itemOK startId it := by
  obtain ⟨hne, hhead, _, hnodup⟩ := hok
  obtain ⟨hnotin, e, hpath⟩ := mem_expandNbrs h
  refine ⟨?_, ?_, ?_, ?_⟩
  · rw [hpath]; simp
  · rw [hpath]
    cases path with
    | nil => exact absurd rfl hne
    | cons a as => simpa using hhead
  · rw [hpath]
    simp [List.getLast?_concat]
  · rw [hpath]
    simp only [List.map_append, List.map_cons, List.map_nil]
    rw [List.nodup_append]
    exact ⟨hnodup, List.nodup_singleton _, by simpa using hnotin⟩

/-- Master invariant of the BFS loop: every result path runs from `startId`
to `endId`, is simple, respects the hop bounds, at most `mp` paths are
returned, and their lengths are nondecreasing. -/
theorem bfsLoop_invariant (adj : Adj) (startId endId : String) (mh mp : Nat) :
    ∀ fuel q found,
      (∀ it ∈ q, itemOK startId it) →
      (∀ p ∈ found, pathOK startId endId mh p) →
      found.length ≤ mp →
      queueOK q →
      foundOK q found →
      (∀ p ∈ bfsLoop adj endId mh mp fuel q found, pathOK startId endId mh p)
      ∧ (bfsLoop adj endId mh mp fuel q found).length ≤ mp
      ∧ List.Pairwise lenLE (bfsLoop adj endId mh mp fuel q found) := by
  intro fuel
  induction fuel with
  | zero =>
    intro q found hq hf hlen _ hfo
    cases q with
    | nil => exact ⟨by simpa [bfsLoop] using hf, by simpa [bfsLoop] using hlen,
        by simpa [bfsLoop] using hfo.1⟩
    | cons a as => exact ⟨by simpa [bfsLoop] using hf, by simpa [bfsLoop] using hlen,
        by simpa [bfsLoop] using hfo.1⟩
  | succ fuel ih =>
    intro q found hq hf hlen hqo hfo
    match q with
    | [] => exact ⟨by simpa [bfsLoop] using hf, by simpa [bfsLoop] using hlen,
        by simpa [bfsLoop] using hfo.1⟩
    | (c, p) :: rest =>
      have hitem : itemOK startId (c, p) := hq (c, p) (List.mem_cons_self _ _)
      have hpairwise : List.Pairwise qlenLE ((c, p) :: rest) := hqo.1
      have hrest_ge : ∀ x ∈ rest, p.length ≤ x.2.length := by
        intro x hx
        exact (List.pairwise_cons.mp hpairwise).1 x hx
      have hbound : ∀ x ∈ (c, p) :: rest, x.2.length ≤ p.length + 1 := by
        intro x hx
        exact hqo.2 (c, p) (by simp) x hx
      have hqrest : ∀ it ∈ rest, itemOK startId it :=
        fun it hit => hq it (List.mem_cons_of_mem _ hit)
      have hqorest : queueOK rest := by
        refine ⟨(List.pairwise_cons.mp hpairwise).2, ?_⟩
        intro h hh x hx
        have hhmem : h ∈ rest := by
          cases rest with
          | nil => simp at hh
          | cons r rs => simp at hh; subst hh; exact List.mem_cons_self _ _
        calc x.2.length ≤ p.length + 1 := hbound x (List.mem_cons_of_mem _ hx)
          _ ≤ h.2.length + 1 := by have := hrest_ge h hhmem; omega
      have hforest : foundOK rest found :=
        ⟨hfo.1, fun a ha it hit => hfo.2 a ha it (List.mem_cons_of_mem _ hit)⟩
      simp only [bfsLoop]
      by_cases h1 : mp ≤ found.length
      · simp only [h1, if_true]
        exact ⟨hf, hlen, hfo.1⟩
      · simp only [h1, if_false]
        by_cases h2 : mh + 1 < p.length
        · simp only [h2, if_true]
          exact ih rest found hqrest hf hlen hqorest hforest
        · simp only [h2, if_false]
          by_cases h3 : (c == endId && decide (1 < p.length)) = true
          · simp only [h3, if_true]
            simp only [Bool.and_eq_true, beq_iff_eq, decide_eq_true_eq] at h3
            have hpOK : pathOK startId endId mh p := by
              obtain ⟨hne, hhead, hlast, hnodup⟩ := hitem
              refine ⟨hhead, ?_, hnodup, by omega, by omega⟩
              rw [← h3.1]
              exact hlast
            have hf' : ∀ a ∈ found ++ [p], pathOK startId endId mh a := by
              intro a ha
              rcases List.mem_append.mp ha with h | h
              · exact hf a h
              · simp only [List.mem_singleton] at h
                subst h; exact hpOK
            have hlen' : (found ++ [p]).length ≤ mp := by
              simp only [List.length_append, List.length_singleton]
              omega
            have hfo' : foundOK rest (found ++ [p]) := by
              constructor
              · rw [List.pairwise_append]
                refine ⟨hfo.1, List.pairwise_singleton _ _, ?_⟩
                intro a ha b hb
                simp only [List.mem_singleton] at hb
                unfold lenLE
                rw [hb]
                exact hfo.2 a ha (c, p) (List.mem_cons_self _ _)
              · intro a ha it hit
                rcases List.mem_append.mp ha with h | h
                · exact hfo.2 a h it (List.mem_cons_of_mem _ hit)
                · simp only [List.mem_singleton] at h
                  rw [h]
                  exact hrest_ge it hit
            exact ih rest (found ++ [p]) hqrest hf' hlen' hqorest hfo'
          · simp only [h3, Bool.false_eq_true, if_false]
            have hnewlen : ∀ it ∈ expandNbrs (adjLookup adj c) p, it.2.length = p.length + 1 :=
              fun it hit => expandNbrs_len hit
            have hq' : ∀ it ∈ rest ++ expandNbrs (adjLookup adj c) p, itemOK startId it := by
              intro it hit
              rcases List.mem_append.mp hit with h | h
              · exact hqrest it h
              · exact expandNbrs_itemOK hitem h
            have hqo' : queueOK (rest ++ expandNbrs (adjLookup adj c) p) := by
              constructor
              · rw [List.pairwise_append]
                refine ⟨hqorest.1, ?_, ?_⟩
                · apply List.pairwise_of_forall_mem_list
                  intro a ha b hb
                  unfold qlenLE
                  rw [hnewlen a ha, hnewlen b hb]
                · intro a ha b hb
                  unfold qlenLE
                  rw [hnewlen b hb]
                  exact hbound a (List.mem_cons_of_mem _ ha)
              · intro h hh x hx
                have hhmem : h ∈ rest ++ expandNbrs (adjLookup adj c) p := by
                  cases hl : rest ++ expandNbrs (adjLookup adj c) p with
                  | nil => rw [hl] at hh; simp at hh
                  | cons y ys =>
                    rw [hl] at hh
                    simp only [List.head?_cons, Option.mem_def, Option.some.injEq] at hh
                    rw [← hh]
                    exact List.mem_cons_self _ _
                have hge : p.length ≤ h.2.length := by
                  rcases List.mem_append.mp hhmem with hr | hn
                  · exact hrest_ge h hr
                  · rw [hnewlen h hn]; omega
                have hle : x.2.length ≤ p.length + 1 := by
                  rcases List.mem_append.mp hx with hr | hn
                  · exact hbound x (List.mem_cons_of_mem _ hr)
                  · exact le_of_eq (hnewlen x hn)
                omega
            have hfo'' : foundOK (rest ++ expandNbrs (adjLookup adj c) p) found := by
              refine ⟨hfo.1, ?_⟩
              intro a ha it hit
              rcases List.mem_append.mp hit with h | h
              · exact hfo.2 a ha it (List.mem_cons_of_mem _ h)
              · rw [hnewlen it h]
                have h6 : a.length ≤ p.length := hfo.2 a ha (c, p) (List.mem_cons_self _ _)
                omega
            exact ih _ found hq' hf hlen hqo' hfo''

/-- C10: every path returned by `find_paths` starts at the start node, ends
at the end node, repeats no node id, and has between 1 and `maxHops` edges;
at most `maxPaths` paths are returned, in nondecreasing order of hop count. -/
theorem find_paths_sound (g : GraphData) (s e : String) (mh mp : Nat) :
    (∀ p ∈ find_paths g s e mh mp,
      p.head?.map Prod.fst = some s ∧ p.getLast?.map Prod.fst = some e
      ∧ (p.map Prod.fst).Nodup ∧ 1 ≤ p.length - 1 ∧ p.length - 1 ≤ mh)
  ∧ (find_paths g s e mh mp).length ≤ mp
  ∧ List.Pairwise (fun a b => a.length - 1 ≤ b.length - 1) (find_paths g s e mh mp) := by
  simp only [find_paths]
  cases hc : (!(adjHasKey (build_adjacency g) s) || !(adjHasKey (build_adjacency g) e)) with
  | true => simp
  | false =>
    simp only [Bool.false_eq_true, if_false]
    have hinit : ∀ it ∈ [((s : String), [((s : String), (none : Option GEdge))])],
        itemOK s it := by
      intro it hit
      simp only [List.mem_singleton] at hit
      subst hit
      exact ⟨by simp, by simp, by simp, by simp⟩
    have h := bfsLoop_invariant (build_adjacency g) s e mh mp (pathFuel g)
      [(s, [(s, none)])] [] hinit
      (by intro p hp; simp at hp)
      (by simp)
      (by
        refine ⟨List.pairwise_singleton _ _, ?_⟩
        intro h hh x hx
        simp only [List.head?_cons, Option.mem_def, Option.some.injEq] at hh
        subst hh
        simp only [List.mem_singleton] at hx
        subst hx
        simp)
      (by exact ⟨List.Pairwise.nil, by intro p hp; simp at hp⟩)
    refine ⟨?_, h.2.1, ?_⟩
    · intro p hp
      obtain ⟨hh, hl, hn, h2, hmh⟩ := h.1 p hp
      exact ⟨hh, hl, hn, by omega, by omega⟩
    · exact h.2.2.imp (fun hab => by unfold lenLE at hab; omega)

/-- Witness for C10: the invariants evaluated on the chain-graph search. -/
theorem find_paths_sound_witness :
    chainPath.head?.map Prod.fst = some "A"
  ∧ chainPath.getLast?.map Prod.fst = some "D"
  ∧ (chainPath.map Prod.fst).Nodup ∧ 1 ≤ chainPath.length - 1
  ∧ chainPath.length - 1 ≤ 4 :=
  (find_paths_sound chainGraph "A" "D" 4 3).1 chainPath (by decide)

/-! ## Search pass (`index._semantic_search_pass`) and reranker (`reranker.rerank`)

The embedding call and the top-`fetch_k` vector query are external; the
match list returned by the vector index is the oracle input.  Metadata
values that may be either JSON strings or numbers (`page`, `chunk_index`)
are modeled by `PVal`. -/

inductive PVal where
  | str (s : String)
  | int (n : Int)
deriving DecidableEq, Repr

/-- Python falsiness of a metadata scalar. -/
def PVal.falsy : PVal → Bool
  | .str s => s == ""
  | .int n => n == 0

def PVal.render : PVal → String
  | .str s => s
  | .int n => toString n

/-- A candidate chunk as built by `_semantic_search_pass`. -/
structure Chunk where
  text : String
  filename : String
  page : PVal
  score : Int
deriving DecidableEq, Repr

/-- Pinecone match metadata.  `nodeContent` is the `_node_content` key:
absent, or present with its parse outcome (`none` = `json.loads` failed,
`some t` = `node.get('text', '')`). -/
structure PMeta where
  nodeContent : Option (Option String)
  text : Option String
  filename : Option String
  page : Option PVal
  chunk_index : Option PVal
deriving DecidableEq, Repr

structure PMatch where
  metadata : Option PMeta
  score : Int
deriving DecidableEq, Repr

/-- Text extraction: prefer the nested `_node_content.text`, else the flat
`text` field. -/
def extractText (m : PMeta) : String :=
  let t1 := match m.nodeContent with
    | some (some t) => t
    | some none => ""
    | none => ""
  if t1 ≠ "" then t1 else m.text.getD ""

/-- `page = metadata.get('page', '')`, falling back to `f"Chunk {chunk_index}"`
when page is falsy but not the integer 0. -/
def extractPage (m : PMeta) : PVal :=
  let page := m.page.getD (.str "")
  if page.falsy && !(page == .int 0) then
    let ci := m.chunk_index.getD (.str "")
    if !(ci == .str "") then .str ("Chunk " ++ ci.render) else .str ""
  else page

/-- Step 3 of `_semantic_search_pass`: skip matches with falsy metadata or no
extractable text. -/
def extractCandidates (pmatches : List PMatch) : List Chunk :=
  pmatches.filterMap (fun r =>
    match r.metadata with
    | none => none
    | some m =>
      let text := extractText m
      if text == "" then none
      else some { text := text, filename := m.filename.getD "unknown",
                  page := extractPage m, score := r.score })

/-- A re-ranking function as seen by the pass; `Except.error` models a raised
exception. -/
abbrev RerankFn := String → List Chunk → Nat → Except String (List Chunk)

/-- Step 4 of `_semantic_search_pass`: re-rank when supplied and worthwhile,
falling back silently to similarity-order truncation on failure. -/
def applyRerank (rerank_fn : Option RerankFn) (query_text : String)
    (candidates : List Chunk) (rerank_top_n : Nat) : List Chunk :=
  match rerank_fn with
  | some f =>
    if rerank_top_n < candidates.length then
      match f query_text candidates rerank_top_n with
      | .ok reranked => reranked
      | .error _ => candidates.take rerank_top_n
    else candidates.take rerank_top_n
  | none => candidates.take rerank_top_n

/-- `index._semantic_search_pass` given the vector index's response. -/
def semantic_search_pass (pmatches : List PMatch) (query_text : String)
    (rerank_fn : Option RerankFn) (rerank_top_n : Nat) : List Chunk :=
  applyRerank rerank_fn query_text (extractCandidates pmatches) rerank_top_n

/-- Oracle inputs of `reranker.rerank`: whether FlashRank loaded, and the
cross-encoder's ranked passage ids (`Except.error` models an exception while
re-ranking, including an out-of-range id from the model). -/
structure RankerOracle where
  available : Bool
  ranked : Except String (List Nat)
deriving Repr

/-- `reranker.rerank`: select `candidates` in the model's order, truncated to
`top_n`; every failure falls back to the original order.  An id that is out
of range raises inside the loop, which the function's own handler converts
into the fallback. -/
def rerank (o : RankerOracle) (_query : String) (candidates : List Chunk)
    (top_n : Nat) : List Chunk :=
  if !o.available then candidates.take top_n
  else
    match o.ranked with
    | .error _ => candidates.take top_n
    | .ok ids =>
      if (ids.take top_n).all (fun i => decide (i < candidates.length)) then
        (ids.take top_n).filterMap (fun i => candidates[i]?)
      else candidates.take top_n

/-- The repo's reranker as a `RerankFn`: it catches its own exceptions and
never throws to the caller. -/
def rerankAsFn (o : RankerOracle) : RerankFn :=
  fun query candidates top_n => .ok (rerank o query candidates top_n)

theorem rerank_length_le (o : RankerOracle) (q : String) (cands : List Chunk)
    (topn : Nat) : (rerank o q cands topn).length ≤ topn := by
  unfold rerank
  by_cases ha : (!o.available) = true
  · simp only [ha, if_true]
    exact le_trans (List.length_take_le _ _) (le_refl _)
  · simp only [ha, Bool.false_eq_true, if_false]
    cases o.ranked with
    | error e => exact le_trans (List.length_take_le _ _) (le_refl _)
    | ok ids =>
      by_cases hb : ((ids.take topn).all (fun i => decide (i < cands.length))) = true
      · simp only [hb, if_true]
        calc ((ids.take topn).filterMap (fun i => cands[i]?)).length
            ≤ (ids.take topn).length := List.length_filterMap_le _ _
          _ ≤ topn := List.length_take_le _ _
      · simp only [hb, Bool.false_eq_true, if_false]
        exact List.length_take_le _ _

/-- C9: with a re-ranking function supplied and more candidates than
`rerank_top_n`, the pass returns exactly the re-ranked list (which the repo's
reranker truncates to `rerank_top_n`); if re-ranking throws, the pass falls
back silently to the first `rerank_top_n` candidates in similarity order, so
no exception escapes the pass. -/
theorem semantic_search_pass_rerank (pmatches : List PMatch) (q : String) (topn : Nat) :
    (∀ ro : RankerOracle, topn < (extractCandidates pmatches).length →
        semantic_search_pass pmatches q (some (rerankAsFn ro)) topn
          = rerank ro q (extractCandidates pmatches) topn
        ∧ (semantic_search_pass pmatches q (some (rerankAsFn ro)) topn).length ≤ topn)
  ∧ (∀ f : RerankFn, ∀ r, topn < (extractCandidates pmatches).length →
        f q (extractCandidates pmatches) topn = .ok r →
        semantic_search_pass pmatches q (some f) topn = r)
  ∧ (∀ f : RerankFn, ∀ msg, topn < (extractCandidates pmatches).length →
        f q (extractCandidates pmatches) topn = .error msg →
        semantic_search_pass pmatches q (some f) topn
          = (extractCandidates pmatches).take topn) := by
  refine ⟨?_, ?_, ?_⟩
  · intro ro hlt
    have he : semantic_search_pass pmatches q (some (rerankAsFn ro)) topn
        = rerank ro q (extractCandidates pmatches) topn := by
      simp [semantic_search_pass, applyRerank, hlt, rerankAsFn]
    exact ⟨he, by rw [he]; exact rerank_length_le _ _ _ _⟩
  · intro f r hlt hok
    simp [semantic_search_pass, applyRerank, hlt, hok]
  · intro f msg hlt herr
    simp [semantic_search_pass, applyRerank, hlt, herr]

/-- Concrete two-candidate search-pass input. -/
def demoMeta1 : PMeta :=
  { nodeContent := none, text := some "first chunk",
    filename := some "a.pdf", page := some (.int 1), chunk_index := none }

def demoMeta2 : PMeta :=
  { nodeContent := none, text := some "second chunk",
    filename := some "b.pdf", page := some (.int 2), chunk_index := none }

def demoMatches : List PMatch :=
  [ { metadata := some demoMeta1, score := 9 },
    { metadata := some demoMeta2, score := 7 } ]

/-- Witness for C9: re-ranking two candidates down to one, and the silent
fallback when the re-ranking function throws. -/
theorem semantic_search_pass_rerank_witness :
    semantic_search_pass demoMatches "q"
        (some (rerankAsFn { available := true, ranked := .ok [1, 0] })) 1
      = rerank { available := true, ranked := .ok [1, 0] } "q"
          (extractCandidates demoMatches) 1
  ∧ semantic_search_pass demoMatches "q"
        (some (fun _ _ _ => .error "boom")) 1
      = (extractCandidates demoMatches).take 1 :=
  ⟨((semantic_search_pass_rerank demoMatches "q" 1).1
      { available := true, ranked := .ok [1, 0] } (by decide)).1,
   (semantic_search_pass_rerank demoMatches "q" 1).2.2
      (fun _ _ _ => .error "boom") "boom" (by decide) rfl⟩

/-! ## Two-pass entity deduplication (`index.deduplicate_graph`,
`build_graph.deduplicate_entities`)

The Supabase tables are modeled as row lists; the Gemini merge response is
an oracle input (the list of merge groups parsed from the model, one list
per run).  Absent JSON keys are `none`; a JSON `null` label would crash the
Python code inside `normalize` and is out of the model. -/

def pyUpper (s : String) : String :=
  ⟨s.data.map Char.toUpper⟩

/-- A row of the `nodes` table as read by `deduplicate_graph`. -/
structure NodeRow where
  id : String
  label : Option String
  type : Option String
  description : Option String
  aliases : Option (List String)
deriving DecidableEq, Repr

/-- A row of the `edges` table. -/
structure EdgeRow where
  id : String
  source : String
  target : String
  predicate : String
deriving DecidableEq, Repr

/-- `n.get("label", n["id"])`. -/
def rowLabelOrId (n : NodeRow) : String := n.label.getD n.id

/-- `(n.get("type") or "UNKNOWN").upper()` — empty and absent both fall back. -/
def rowTypeKey (n : NodeRow) : String :=
  pyUpper (match n.type with
    | none => "UNKNOWN"
    | some t => if t == "" then "UNKNOWN" else t)

/-- `len(n.get("description", "") or "")`. -/
def descLen (n : NodeRow) : Nat := (n.description.getD "").length

/-- The Pass-1 grouping key `(normalize(label-or-id), type)`. -/
def nodeKey (n : NodeRow) : String × String :=
  (pyNormalize (rowLabelOrId n), rowTypeKey n)

/-- Stable insertion used by `pySort`: place `x` before the first element it
compares `le` to, so earlier-listed elements win ties exactly as Python's
stable `sorted`. -/
def pyInsert (le : α → α → Bool) (x : α) : List α → List α
  | [] => [x]
  | y :: ys => if le x y then x :: y :: ys else y :: pyInsert le x ys

/-- Python's `sorted` / `list.sort`: a stable sort by the comparison key. -/
def pySort (le : α → α → Bool) (l : List α) : List α := l.foldr (pyInsert le) []

/-- `sorted(set(...))` on strings. -/
def pySortedSet (l : List String) : List String :=
  pySort (fun a b => decide (a ≤ b)) l.dedup

/-- Insertion-ordered dict write `m[k] = v`. -/
def alistSet (m : List (String × α)) (k : String) (v : α) : List (String × α) :=
  if m.any (fun p => p.1 == k) then
    m.map (fun p => if p.1 == k then (p.1, v) else p)
  else m ++ [(k, v)]

def alistFind (m : List (String × α)) (k : String) : Option α :=
  (m.find? (fun p => p.1 == k)).map Prod.snd

/-- `dict.pop(k)` (drop the entry). -/
def alistDrop (m : List (String × α)) (k : String) : List (String × α) :=
  m.filter (fun p => !(p.1 == k))

/-- `defaultdict(list)` grouping: append `n` under `k`, keeping first-seen
key order. -/
def insertGrouped (m : List ((String × String) × List NodeRow))
    (k : String × String) (n : NodeRow) : List ((String × String) × List NodeRow) :=
  match m with
  | [] => [(k, [n])]
  | (k', g) :: rest =>
    if k' == k then (k', g ++ [n]) :: rest
    else (k', g) :: insertGrouped rest k n

/-- `groups = defaultdict(list); for n in raw_nodes: groups[key].append(n)`. -/
def groupNodes (ns : List NodeRow) : List ((String × String) × List NodeRow) :=
  ns.foldl (fun m n => insertGrouped m (nodeKey n) n) []

/-- `group.sort(key=desc-length, reverse=True); canonical = group[0]`: the
earliest element of maximal description length (Python's sort is stable). -/
def pickCanonical (g : List NodeRow) : Option NodeRow :=
  g.foldl (fun best n =>
    match best with
    | none => some n
    | some b => if descLen b < descLen n then some n else some b) none

/-- Union of the group's labels and aliases minus the canonical label,
sorted (`canonical["aliases"] = sorted(all_aliases)`). -/
def groupAliases (g : List NodeRow) (canon : NodeRow) : List String :=
  pySortedSet ((g.map rowLabelOrId ++ (g.map (fun e => e.aliases.getD [])).flatten).filter
    (fun a => !(a == rowLabelOrId canon)))

/-- Pass-1 / Pass-2 shared state: `merged_entities` and `id_remap`, both
insertion-ordered dicts, plus the Gemini merge counter. -/
structure DedupState where
  merged : List (String × NodeRow)
  remap : List (String × String)
  gcount : Nat
deriving Repr

/-- `canonical["aliases"] = sorted(all_aliases)`: the canonical record with
its alias set overwritten. -/
def canonize (g : List NodeRow) (c0 : NodeRow) : NodeRow :=
  { c0 with aliases := some (groupAliases g c0) }

/-- One Pass-1 group: pick the canonical, overwrite its aliases, record the
id remap for every member. -/
def pass1Step (st : DedupState) (kg : (String × String) × List NodeRow) : DedupState :=
  match pickCanonical kg.2 with
  | none => st
  | some c0 =>
    { merged := alistSet st.merged (canonize kg.2 c0).id (canonize kg.2 c0),
      remap := kg.2.foldl (fun m ent => alistSet m ent.id (canonize kg.2 c0).id) st.remap,
      gcount := st.gcount }

def pass1 (rawNodes : List NodeRow) : DedupState :=
  (groupNodes rawNodes).foldl pass1Step { merged := [], remap := [], gcount := 0 }

/-- Merge one non-canonical entity into the canonical during Pass 2:
`other = merged_entities.pop(other_id)`, alias union, keep the longer
description, repoint every remap entry at `other_id`, then map
`other_id → canonical_id`. -/
def mergeOther (canonicalId : String) (st : DedupState) (otherId : String) : DedupState :=
  match alistFind st.merged canonicalId, alistFind st.merged otherId with
  | some canon, some other =>
    let aliases := pySortedSet
      (((canon.aliases.getD []) ++ [rowLabelOrId other] ++ (other.aliases.getD [])).filter
        (fun a => !(a == rowLabelOrId canon)))
    let canon' : NodeRow := { canon with
      aliases := some aliases,
      description := if descLen canon < descLen other then other.description
        else canon.description }
    { merged := alistSet (alistDrop st.merged otherId) canonicalId canon',
      remap := alistSet
        (st.remap.map (fun kv => if kv.2 == otherId then (kv.1, canonicalId) else kv))
        otherId canonicalId,
      gcount := st.gcount + 1 }
  | _, _ => st

/-- One Gemini merge group: ignore groups of fewer than two valid ids, pick
the canonical (max description length, earliest), merge the rest into it. -/
def applyMergeGroup (st : DedupState) (group : List String) : DedupState :=
  if group.length < 2 then st
  else
    let validIds := group.filter (fun eid => (alistFind st.merged eid).isSome)
    if validIds.length < 2 then st
    else
      let sorted := pySort (fun a b =>
        match alistFind st.merged b, alistFind st.merged a with
        | some nb, some na => decide (descLen nb ≤ descLen na)
        | _, _ => true) validIds
      match sorted with
      | [] => st
      | canonicalId :: others => others.foldl (mergeOther canonicalId) st

/-- Pass 2 runs only when the Gemini client exists and more than 10 merged
entities remain. -/
def pass2 (st1 : DedupState) (hasClient : Bool)
    (geminiGroups : List (List String)) : DedupState :=
  if hasClient && decide (10 < st1.merged.length) then
    geminiGroups.foldl applyMergeGroup st1
  else st1

/-- `for old_id, canonical_id in remap_pairs: update source, update target`. -/
def rewireEdges (edges : List EdgeRow) (pairs : List (String × String)) : List EdgeRow :=
  pairs.foldl (fun es p =>
    es.map (fun e =>
      let e1 := if e.source == p.1 then { e with source := p.2 } else e
      if e1.target == p.1 then { e1 with target := p.2 } else e1)) edges

def edgeKey (e : EdgeRow) : String × String × String := (e.source, e.predicate, e.target)

/-- The seen-set scan shared by the duplicate-edge and duplicate-triple
deletions: keep the first element of each key. -/
def keepFirstBy (key : α → κ) [BEq κ] (l : List α) : List α :=
  (l.foldl (fun acc e =>
    if acc.2.contains (key e) then acc
    else (acc.1 ++ [e], acc.2 ++ [key e]))
    (([] : List α), ([] : List κ))).1

/-- Keep the first edge of each `(source, predicate, target)` key. -/
def dedupEdgeKeys (edges : List EdgeRow) : List EdgeRow :=
  keepFirstBy edgeKey edges

/-- The canonical node record upserted back to the store. -/
def canonicalRecord (n : NodeRow) : NodeRow :=
  { id := n.id, label := some (rowLabelOrId n),
    type := some (n.type.getD "UNKNOWN"),
    description := some (n.description.getD ""),
    aliases := some (n.aliases.getD []) }

structure DedupResult where
  nodes : List NodeRow
  edges : List EdgeRow
  merged : Nat
  removed_nodes : Nat
  removed_edges : Nat
deriving DecidableEq, Repr

/-- `index.deduplicate_graph`, as a pure function of the table contents, the
Gemini client's availability, and the parsed merge groups collected over all
prompt batches. -/
def deduplicate_graph (rawNodes : List NodeRow) (rawEdges : List EdgeRow)
    (hasClient : Bool) (geminiGroups : List (List String)) : DedupResult :=
  if rawNodes.isEmpty then
    { nodes := rawNodes, edges := rawEdges, merged := 0,
      removed_nodes := 0, removed_edges := 0 }
  else
    let st1 := pass1 rawNodes
    let heuristicRemoved := rawNodes.length - st1.merged.length
    let st2 := pass2 st1 hasClient geminiGroups
    let remapPairs := st2.remap.filter (fun kv => !(kv.1 == kv.2))
    let duplicateIds := remapPairs.map Prod.fst
    if duplicateIds.isEmpty then
      { nodes := rawNodes, edges := rawEdges, merged := 0,
        removed_nodes := 0, removed_edges := 0 }
    else
      let rewired := rewireEdges rawEdges remapPairs
      let selfLoopCount := (rewired.filter (fun e => e.source == e.target)).length
      let afterLoops := rewired.filter (fun e => !(e.source == e.target))
      let kept := dedupEdgeKeys afterLoops
      let dupEdgeCount := afterLoops.length - kept.length
      let finalEdges := kept.filter (fun e =>
        !(duplicateIds.contains e.source) && !(duplicateIds.contains e.target))
      { nodes := st2.merged.map (fun kv => canonicalRecord kv.2),
        edges := finalEdges,
        merged := heuristicRemoved + st2.gcount,
        removed_nodes := duplicateIds.length,
        removed_edges := selfLoopCount + dupEdgeCount }

/-! ## Triple cleanup stage of `build_graph.deduplicate_entities`

The remap/filter/dedup of the raw triples runs on every call, whatever the
two merge passes produced; it is embedded as a function of the pass
outputs. -/

structure Triple where
  subject_id : String
  predicate : String
  object_id : String
deriving DecidableEq, Repr

def tripleKey (t : Triple) : String × String × String :=
  (t.subject_id, t.predicate, t.object_id)

/-- Remap both endpoints through `id_remap`, keep only triples whose
endpoints are distinct surviving entities, then keep the first triple of
each `(subject, predicate, object)` key. -/
def remapDedupTriples (remap : List (String × String)) (mergedIds : List String)
    (triples : List Triple) : List Triple :=
  let remapped := triples.map (fun t =>
    { t with subject_id := (alistFind remap t.subject_id).getD t.subject_id,
             object_id := (alistFind remap t.object_id).getD t.object_id })
  let valid := remapped.filter (fun t =>
    mergedIds.contains t.subject_id && mergedIds.contains t.object_id
      && !(t.subject_id == t.object_id))
  keepFirstBy tripleKey valid

/-! ## C5: edge safety after deduplication -/

theorem keepFirstBy_aux (key : α → κ) [BEq κ] [LawfulBEq κ] :
    ∀ (l : List α) (acc : List α × List κ),
      acc.2 = acc.1.map key → (acc.1.map key).Nodup →
      ((l.foldl (fun acc e =>
          if acc.2.contains (key e) then acc
          else (acc.1 ++ [e], acc.2 ++ [key e])) acc).1.map key).Nodup
      ∧ ∀ x ∈ (l.foldl (fun acc e =>
          if acc.2.contains (key e) then acc
          else (acc.1 ++ [e], acc.2 ++ [key e])) acc).1, x ∈ acc.1 ∨ x ∈ l := by
  intro l
  induction l with
  | nil =>
    intro acc _ hnd
    exact ⟨hnd, fun x hx => Or.inl hx⟩
  | cons e rest ih =>
    intro acc hseen hnd
    simp only [List.foldl_cons]
    by_cases hc : (acc.2.contains (key e)) = true
    · simp only [hc, if_true]
      obtain ⟨h1, h2⟩ := ih acc hseen hnd
      refine ⟨h1, fun x hx => ?_⟩
      rcases h2 x hx with h | h
      · exact Or.inl h
      · exact Or.inr (List.mem_cons_of_mem _ h)
    · simp only [hc, Bool.false_eq_true, if_false]
      have hnotin : key e ∉ acc.1.map key := by
        rw [← hseen]
        intro hmem
        exact hc (List.elem_eq_true_of_mem hmem)
      have hseen' : acc.2 ++ [key e] = (acc.1 ++ [e]).map key := by
        rw [List.map_append, hseen]
        rfl
      have hnd' : ((acc.1 ++ [e]).map key).Nodup := by
        rw [List.map_append]
        rw [List.nodup_append]
        exact ⟨hnd, List.nodup_singleton _, by simpa using hnotin⟩
      obtain ⟨h1, h2⟩ := ih (acc.1 ++ [e], acc.2 ++ [key e]) hseen' hnd'
      refine ⟨h1, fun x hx => ?_⟩
      rcases h2 x hx with h | h
      · rcases List.mem_append.mp h with h' | h'
        · exact Or.inl h'
        · simp only [List.mem_singleton] at h'
          exact Or.inr (h' ▸ List.mem_cons_self _ _)
      · exact Or.inr (List.mem_cons_of_mem _ h)

theorem keepFirstBy_nodup (key : α → κ) [BEq κ] [LawfulBEq κ] (l : List α) :
    ((keepFirstBy key l).map key).Nodup :=
  (keepFirstBy_aux key l ([], []) rfl List.nodup_nil).1

theorem keepFirstBy_subset (key : α → κ) [BEq κ] [LawfulBEq κ] (l : List α) :
    ∀ x ∈ keepFirstBy key l, x ∈ l := by
  intro x hx
  rcases (keepFirstBy_aux key l ([], []) rfl List.nodup_nil).2 x hx with h | h
  · simp at h
  · exact h

/-- Branch characterization of `deduplicate_graph`: either no duplicates were
found (zero removals), or the returned edges are the cleanup of the rewired
table. -/
theorem deduplicate_graph_edges_shape (ns : List NodeRow) (es : List EdgeRow)
    (hc : Bool) (gg : List (List String)) :
    (deduplicate_graph ns es hc gg).removed_nodes = 0
  ∨ ∃ pairs : List (String × String),
      (deduplicate_graph ns es hc gg).edges =
        (dedupEdgeKeys ((rewireEdges es pairs).filter
          (fun e => !(e.source == e.target)))).filter
          (fun e => !(((pairs.map Prod.fst)).contains e.source)
            && !(((pairs.map Prod.fst)).contains e.target)) := by
  unfold deduplicate_graph
  by_cases h1 : ns.isEmpty
  · simp [h1]
  · simp only [h1, Bool.false_eq_true, if_false]
    by_cases h2 : (((pass2 (pass1 ns) hc gg).remap.filter
        (fun kv => !(kv.1 == kv.2))).map Prod.fst).isEmpty
    · rw [if_pos h2]
      exact Or.inl rfl
    · rw [if_neg h2]
      exact Or.inr ⟨_, rfl⟩

/-- C5 (amended): the triple-cleanup stage of `build_graph.deduplicate_entities`
unconditionally leaves no self-loop triple and no two triples with the same
`(subject, predicate, object)` key; `deduplicate_graph` guarantees the same
for its edge table whenever it found at least one duplicate id (with zero
duplicates it returns the graph unchanged, so pre-existing self-loops or
duplicate-key edges survive — see the counterexample). -/
theorem dedup_edge_safety :
    (∀ (remap : List (String × String)) (mergedIds : List String) (triples : List Triple),
      (∀ t ∈ remapDedupTriples remap mergedIds triples, t.subject_id ≠ t.object_id)
      ∧ ((remapDedupTriples remap mergedIds triples).map tripleKey).Nodup)
  ∧ (∀ (ns : List NodeRow) (es : List EdgeRow) (hc : Bool) (gg : List (List String)),
      0 < (deduplicate_graph ns es hc gg).removed_nodes →
      (∀ e ∈ (deduplicate_graph ns es hc gg).edges, e.source ≠ e.target)
      ∧ (((deduplicate_graph ns es hc gg).edges).map edgeKey).Nodup) := by
  constructor
  · intro remap mergedIds triples
    constructor
    · intro t ht
      have hmem := keepFirstBy_subset tripleKey _ t ht
      have := List.of_mem_filter hmem
      simp only [Bool.and_eq_true, Bool.not_eq_true', beq_eq_false_iff_ne] at this
      exact this.2
    · exact keepFirstBy_nodup tripleKey _
  · intro ns es hc gg hpos
    rcases deduplicate_graph_edges_shape ns es hc gg with h | ⟨pairs, h⟩
    · omega
    · rw [h]
      constructor
      · intro e he
        have he1 := List.of_mem_filter he
        have he2 := List.mem_of_mem_filter he
        have he3 := keepFirstBy_subset edgeKey _ e he2
        have := List.of_mem_filter he3
        simp only [Bool.not_eq_true', beq_eq_false_iff_ne] at this
        exact this
      · have hnd := keepFirstBy_nodup edgeKey
          ((rewireEdges es pairs).filter (fun e => !(e.source == e.target)))
        exact (List.Sublist.map edgeKey (List.filter_sublist _)).nodup hnd

/-- A self-loop edge on the only node. -/
def loopNode : NodeRow :=
  { id := "a", label := some "A", type := some "PERSON",
    description := some "", aliases := some [] }

def loopEdge : EdgeRow := { id := "e1", source := "a", target := "a", predicate := "p" }

/-- Counterexample to C5 as stated: with a single node and a pre-existing
self-loop edge, deduplication finds no duplicates and returns the edge
table unchanged, so a self-loop survives. -/
theorem dedup_edge_safety_counterexample :
    (deduplicate_graph [loopNode] [loopEdge] false []).edges = [loopEdge]
  ∧ ∃ e ∈ (deduplicate_graph [loopNode] [loopEdge] false []).edges,
      e.source = e.target := by
  constructor
  · decide
  · exact ⟨loopEdge, by decide, rfl⟩

/-- Two nodes sharing the key ("acme", "ORG"): a merge happens. -/
def dupNodeA : NodeRow :=
  { id := "a1", label := some "Acme", type := some "ORG",
    description := some "long description", aliases := some [] }

def dupNodeB : NodeRow :=
  { id := "a2", label := some "Acme", type := some "ORG",
    description := some "", aliases := some [] }

def wEdge1 : EdgeRow := { id := "e1", source := "a1", target := "a2", predicate := "dup" }

def wEdge2 : EdgeRow := { id := "e2", source := "a1", target := "b", predicate := "p" }

def wEdge3 : EdgeRow := { id := "e3", source := "a2", target := "b", predicate := "p" }

/-- Witness for C5: a run that merges `a2` into `a1`, turning `e1` into a
removed self-loop and `e3` into a removed duplicate of `e2`. -/
theorem dedup_edge_safety_witness :
    (Triple.mk "y" "p" "z").subject_id ≠ (Triple.mk "y" "p" "z").object_id
  ∧ wEdge2.source ≠ wEdge2.target
  ∧ (((deduplicate_graph [dupNodeA, dupNodeB] [wEdge1, wEdge2, wEdge3]
        false []).edges).map edgeKey).Nodup :=
  ⟨(dedup_edge_safety.1 [("x", "y")] ["y", "z"] [Triple.mk "x" "p" "z"]).1
      (Triple.mk "y" "p" "z") (by decide),
   (dedup_edge_safety.2 [dupNodeA, dupNodeB] [wEdge1, wEdge2, wEdge3] false []
      (by decide)).1 wEdge2 (by decide),
   (dedup_edge_safety.2 [dupNodeA, dupNodeB] [wEdge1, wEdge2, wEdge3] false []
      (by decide)).2⟩

/-! ## C6: idempotence of deduplication — association-list toolbox -/

theorem mem_alistSet {m : List (String × α)} {k : String} {v : α} {kv : String × α}
    (h : kv ∈ alistSet m k v) : kv = (k, v) ∨ (kv ∈ m ∧ kv.1 ≠ k) := by
  unfold alistSet at h
  by_cases hc : (m.any (fun p => p.1 == k)) = true
  · simp only [hc, if_true, List.mem_map] at h
    obtain ⟨p, hp, heq⟩ := h
    by_cases hk : (p.1 == k) = true
    · simp only [hk, if_true] at heq
      left
      rw [← heq]
      simp only [beq_iff_eq] at hk
      rw [hk]
    · simp only [hk, Bool.false_eq_true, if_false] at heq
      right
      refine ⟨heq ▸ hp, ?_⟩
      rw [← heq]
      simpa using hk
  · simp only [hc, Bool.false_eq_true, if_false, List.mem_append, List.mem_singleton] at h
    rcases h with h | h
    · right
      refine ⟨h, ?_⟩
      intro hk
      rw [List.any_eq_true] at hc
      exact absurd ⟨_, h, by simp [hk]⟩ hc
    · exact Or.inl h

theorem alistSet_mem_of_ne {m : List (String × α)} {k : String} {v : α} {kv : String × α}
    (hkv : kv ∈ m) (hne : kv.1 ≠ k) : kv ∈ alistSet m k v := by
  unfold alistSet
  by_cases hc : (m.any (fun p => p.1 == k)) = true
  · simp only [hc, if_true, List.mem_map]
    exact ⟨kv, hkv, by simp [hne]⟩
  · simp only [hc, Bool.false_eq_true, if_false, List.mem_append]
    exact Or.inl hkv

theorem alistSet_keys_mem {m : List (String × α)} {k : String} {v : α} {x : String}
    (h : x ∈ (alistSet m k v).map Prod.fst) : x ∈ m.map Prod.fst ∨ x = k := by
  simp only [List.mem_map] at h
  obtain ⟨kv, hkv, hx⟩ := h
  rcases mem_alistSet hkv with h | ⟨h, _⟩
  · right; rw [← hx, h]
  · left; exact List.mem_map.mpr ⟨kv, h, hx⟩

theorem alistSet_keys_nodup {m : List (String × α)} {k : String} {v : α}
    (h : (m.map Prod.fst).Nodup) : ((alistSet m k v).map Prod.fst).Nodup := by
  unfold alistSet
  by_cases hc : (m.any (fun p => p.1 == k)) = true
  · simp only [hc, if_true]
    have : (m.map (fun p => if p.1 == k then (p.1, v) else p)).map Prod.fst
        = m.map Prod.fst := by
      rw [List.map_map]
      apply List.map_congr_left
      intro p _
      show (if p.1 == k then (p.1, v) else p).1 = p.1
      split <;> rfl
    rw [this]
    exact h
  · simp only [hc, Bool.false_eq_true, if_false, List.map_append]
    rw [List.nodup_append]
    refine ⟨h, by simp, ?_⟩
    intro x hx
    simp only [List.map_cons, List.map_nil, List.mem_singleton]
    intro hk
    subst hk
    rw [List.any_eq_true] at hc
    simp only [List.mem_map] at hx
    obtain ⟨p, hp, hpx⟩ := hx
    exact hc ⟨p, hp, by simp [hpx]⟩

theorem find?_replace_self (m : List (String × α)) (k : String) (v : α) :
    (m.map (fun p => if p.1 == k then (p.1, v) else p)).find? (fun p => p.1 == k)
      = (m.find? (fun p => p.1 == k)).map (fun p => (p.1, v)) := by
  induction m with
  | nil => rfl
  | cons q rest ih =>
    simp only [List.map_cons, List.find?_cons]
    by_cases hq : (q.1 == k) = true
    · simp [-List.find?_map, hq]
    · simp [-List.find?_map, hq]
      simpa [-List.find?_map] using ih

theorem find?_replace_other (m : List (String × α)) (k k' : String) (v : α)
    (hne : k' ≠ k) :
    (m.map (fun p => if p.1 == k then (p.1, v) else p)).find? (fun p => p.1 == k')
      = m.find? (fun p => p.1 == k') := by
  induction m with
  | nil => rfl
  | cons q rest ih =>
    simp only [List.map_cons, List.find?_cons]
    by_cases hq : (q.1 == k) = true
    · have h1 : (q.1 == k') = false := by
        simp only [beq_iff_eq] at hq
        simp only [beq_eq_false_iff_ne]
        rw [hq]
        exact fun h => hne h.symm
      simp [-List.find?_map, hq, h1]
      simpa [-List.find?_map] using ih
    · by_cases hk' : (q.1 == k') = true
      · simp [-List.find?_map, hq, hk']
      · simp [-List.find?_map, hq, hk']
        simpa [-List.find?_map] using ih

theorem alistFind_set_self {m : List (String × α)} {k : String} {v : α} :
    alistFind (alistSet m k v) k = some v := by
  unfold alistFind alistSet
  by_cases hc : (m.any (fun p => p.1 == k)) = true
  · simp only [hc, if_true]
    rw [find?_replace_self]
    obtain ⟨p, hp, hpk⟩ := List.any_eq_true.mp hc
    cases hf : m.find? (fun p => p.1 == k) with
    | none =>
      exact absurd hpk (by simpa using List.find?_eq_none.mp hf p hp)
    | some q => simp
  · simp only [hc, Bool.false_eq_true, if_false]
    have hnone : m.find? (fun p => p.1 == k) = none := by
      rw [List.find?_eq_none]
      intro p hp hk
      rw [List.any_eq_true] at hc
      exact hc ⟨p, hp, hk⟩
    rw [List.find?_append, hnone]
    simp

theorem alistFind_set_other {m : List (String × α)} {k k' : String} {v : α}
    (hne : k' ≠ k) : alistFind (alistSet m k v) k' = alistFind m k' := by
  unfold alistFind alistSet
  by_cases hc : (m.any (fun p => p.1 == k)) = true
  · simp only [hc, if_true]
    rw [find?_replace_other m k k' v hne]
  · simp only [hc, Bool.false_eq_true, if_false]
    rw [List.find?_append]
    cases hf : m.find? (fun p => p.1 == k') with
    | some p => simp
    | none =>
      have : (k == k') = false := by
        simp only [beq_eq_false_iff_ne]
        exact fun h => hne h.symm
      simp [List.find?_cons, this]

theorem alistFind_mem {m : List (String × α)} {k : String} {v : α}
    (h : alistFind m k = some v) : (k, v) ∈ m := by
  unfold alistFind at h
  cases hf : m.find? (fun p => p.1 == k) with
  | none => rw [hf] at h; simp at h
  | some p =>
    rw [hf] at h
    simp at h
    have hp := List.find?_some hf
    have hmem := List.mem_of_find?_eq_some hf
    simp only [beq_iff_eq] at hp
    have : p = (k, v) := by
      cases p with
      | mk a b => simp at hp h; rw [hp, h]
    exact this ▸ hmem

theorem alistFind_of_mem_nodup {m : List (String × α)} {kv : String × α}
    (hnd : (m.map Prod.fst).Nodup) (h : kv ∈ m) : alistFind m kv.1 = some kv.2 := by
  induction m with
  | nil => simp at h
  | cons q rest ih =>
    simp only [List.map_cons, List.nodup_cons] at hnd
    rcases List.mem_cons.mp h with h1 | h1
    · subst h1
      unfold alistFind
      simp [List.find?_cons]
    · unfold alistFind
      rw [List.find?_cons]
      by_cases hq : (q.1 == kv.1) = true
      · exfalso
        simp only [beq_iff_eq] at hq
        exact hnd.1 (hq ▸ List.mem_map.mpr ⟨kv, h1, rfl⟩)
      · simp only [hq, Bool.false_eq_true, if_false]
        exact ih hnd.2 h1

/-! The remap writes of one Pass-1 group: every member id ends up mapped to
the canonical id, and other keys are untouched. -/

theorem memberFold_find_of_not_mem {g : List NodeRow} {m : List (String × String)}
    {cid k : String} (h : k ∉ g.map NodeRow.id) :
    alistFind (g.foldl (fun m ent => alistSet m ent.id cid) m) k = alistFind m k := by
  induction g generalizing m with
  | nil => rfl
  | cons e rest ih =>
    simp only [List.map_cons, List.mem_cons, not_or] at h
    simp only [List.foldl_cons]
    rw [ih h.2]
    exact alistFind_set_other h.1

theorem memberFold_find_of_mem {g : List NodeRow} {m : List (String × String)}
    {cid k : String} (h : k ∈ g.map NodeRow.id) :
    alistFind (g.foldl (fun m ent => alistSet m ent.id cid) m) k = some cid := by
  induction g generalizing m with
  | nil => simp at h
  | cons e rest ih =>
    simp only [List.foldl_cons]
    by_cases hk : k ∈ rest.map NodeRow.id
    · exact ih hk
    · have hke : k = e.id := by
        simp only [List.map_cons, List.mem_cons] at h
        tauto
      rw [memberFold_find_of_not_mem hk, hke, alistFind_set_self]

theorem memberFold_keys_nodup {g : List NodeRow} {m : List (String × String)} {cid : String}
    (h : (m.map Prod.fst).Nodup) :
    (((g.foldl (fun m ent => alistSet m ent.id cid) m)).map Prod.fst).Nodup := by
  induction g generalizing m with
  | nil => exact h
  | cons e rest ih =>
    simp only [List.foldl_cons]
    exact ih (alistSet_keys_nodup h)

theorem mem_memberFold {g : List NodeRow} {m : List (String × String)} {cid : String}
    {kv : String × String} (h : kv ∈ g.foldl (fun m ent => alistSet m ent.id cid) m) :
    kv ∈ m ∨ kv.2 = cid := by
  induction g generalizing m with
  | nil => exact Or.inl h
  | cons e rest ih =>
    simp only [List.foldl_cons] at h
    rcases ih h with h1 | h1
    · rcases mem_alistSet h1 with h2 | ⟨h2, _⟩
      · right; rw [h2]
      · exact Or.inl h2
    · exact Or.inr h1

/-! Structural facts about the `defaultdict` grouping. -/

theorem insertGrouped_flatten_perm (m : List ((String × String) × List NodeRow))
    (k : String × String) (n : NodeRow) :
    ((insertGrouped m k n).map Prod.snd).flatten.Perm ((m.map Prod.snd).flatten ++ [n]) := by
  induction m with
  | nil => simp [insertGrouped]
  | cons q rest ih =>
    simp only [insertGrouped]
    by_cases hq : (q.1 == k) = true
    · simp only [hq, if_true, List.map_cons, List.flatten_cons]
      rw [List.append_assoc, List.append_assoc]
      exact List.Perm.append_left q.2 (List.perm_append_comm)
    · simp only [hq, Bool.false_eq_true, if_false, List.map_cons, List.flatten_cons]
      rw [List.append_assoc]
      exact List.Perm.append_left q.2 ih

theorem groupNodes_flatten_perm (ns : List NodeRow) :
    (((groupNodes ns).map Prod.snd).flatten).Perm ns := by
  suffices h : ∀ (ns : List NodeRow) (acc : List ((String × String) × List NodeRow)),
      (((ns.foldl (fun m n => insertGrouped m (nodeKey n) n) acc).map Prod.snd).flatten).Perm
        ((acc.map Prod.snd).flatten ++ ns) by
    have := h ns []
    simpa using this
  intro ns
  induction ns with
  | nil => intro acc; simp
  | cons n rest ih =>
    intro acc
    simp only [List.foldl_cons]
    refine (ih (insertGrouped acc (nodeKey n) n)).trans ?_
    have h1 := (insertGrouped_flatten_perm acc (nodeKey n) n).append_right rest
    have h2 : ((acc.map Prod.snd).flatten ++ [n]) ++ rest
        = (acc.map Prod.snd).flatten ++ (n :: rest) := by
      rw [List.append_assoc]
      rfl
    exact h2 ▸ h1

theorem insertGrouped_GK {m : List ((String × String) × List NodeRow)}
    {k : String × String} {n : NodeRow}
    (hm : ∀ kg ∈ m, ∀ x ∈ kg.2, nodeKey x = kg.1) (hn : nodeKey n = k) :
    ∀ kg ∈ insertGrouped m k n, ∀ x ∈ kg.2, nodeKey x = kg.1 := by
  induction m with
  | nil =>
    intro kg hkg x hx
    simp only [insertGrouped, List.mem_singleton] at hkg
    subst hkg
    simp only [List.mem_singleton] at hx
    subst hx
    exact hn
  | cons q rest ih =>
    intro kg hkg x hx
    simp only [insertGrouped] at hkg
    by_cases hq : (q.1 == k) = true
    · simp only [hq, if_true, List.mem_cons] at hkg
      rcases hkg with h1 | h1
      · subst h1
        simp only at hx
        rcases List.mem_append.mp hx with h2 | h2
        · exact hm q (List.mem_cons_self _ _) x h2
        · simp only [List.mem_singleton] at h2
          subst h2
          simp only [beq_iff_eq] at hq
          rw [hn, ← hq]
      · exact hm kg (List.mem_cons_of_mem _ h1) x hx
    · simp only [hq, Bool.false_eq_true, if_false, List.mem_cons] at hkg
      rcases hkg with h1 | h1
      · exact hm kg (h1 ▸ List.mem_cons_self _ _) x hx
      · exact ih (fun kg' h' => hm kg' (List.mem_cons_of_mem _ h')) kg h1 x hx

theorem groupNodes_GK (ns : List NodeRow) :
    ∀ kg ∈ groupNodes ns, ∀ x ∈ kg.2, nodeKey x = kg.1 := by
  suffices h : ∀ (ns : List NodeRow) (acc : List ((String × String) × List NodeRow)),
      (∀ kg ∈ acc, ∀ x ∈ kg.2, nodeKey x = kg.1) →
      ∀ kg ∈ ns.foldl (fun m n => insertGrouped m (nodeKey n) n) acc,
        ∀ x ∈ kg.2, nodeKey x = kg.1 from
    h ns [] (by simp)
  intro ns
  induction ns with
  | nil => intro acc hacc; exact hacc
  | cons n rest ih =>
    intro acc hacc
    simp only [List.foldl_cons]
    exact ih _ (insertGrouped_GK hacc rfl)

theorem insertGrouped_keys {m : List ((String × String) × List NodeRow)}
    {k : String × String} {n : NodeRow} :
    (insertGrouped m k n).map Prod.fst = m.map Prod.fst
  ∨ (insertGrouped m k n).map Prod.fst = m.map Prod.fst ++ [k]
      ∧ k ∉ m.map Prod.fst := by
  induction m with
  | nil => right; simp [insertGrouped]
  | cons q rest ih =>
    simp only [insertGrouped]
    by_cases hq : (q.1 == k) = true
    · left; simp [hq]
    · rcases ih with h | ⟨h, hk⟩
      · left
        simp only [hq, Bool.false_eq_true, if_false, List.map_cons, h]
      · right
        simp only [hq, Bool.false_eq_true, if_false, List.map_cons, h]
        refine ⟨rfl, ?_⟩
        simp only [List.mem_cons, not_or]
        refine ⟨?_, hk⟩
        intro hkq
        exact hq (by simp [hkq])

theorem groupNodes_keys_nodup (ns : List NodeRow) :
    ((groupNodes ns).map Prod.fst).Nodup := by
  suffices h : ∀ (ns : List NodeRow) (acc : List ((String × String) × List NodeRow)),
      ((acc.map Prod.fst)).Nodup →
      (((ns.foldl (fun m n => insertGrouped m (nodeKey n) n) acc)).map Prod.fst).Nodup from
    h ns [] (by simp)
  intro ns
  induction ns with
  | nil => intro acc hacc; exact hacc
  | cons n rest ih =>
    intro acc hacc
    simp only [List.foldl_cons]
    apply ih
    rcases @insertGrouped_keys acc (nodeKey n) n with h | ⟨h, hk⟩
    · rw [h]; exact hacc
    · rw [h, List.nodup_append]
      exact ⟨hacc, List.nodup_singleton _, by simpa using hk⟩

theorem pickCanonical_mem {g : List NodeRow} {c : NodeRow}
    (h : pickCanonical g = some c) : c ∈ g := by
  suffices haux : ∀ (g : List NodeRow) (b : Option NodeRow),
      (g.foldl (fun best n =>
        match best with
        | none => some n
        | some b => if descLen b < descLen n then some n else some b) b) = some c →
      (b = some c ∨ c ∈ g) by
    rcases haux g none h with h1 | h1
    · simp at h1
    · exact h1
  intro g
  induction g with
  | nil => intro b hb; exact Or.inl hb
  | cons n rest ih =>
    intro b hb
    simp only [List.foldl_cons] at hb
    cases b with
    | none =>
      rcases ih (some n) hb with h1 | h1
      · simp only [Option.some.injEq] at h1
        exact Or.inr (h1 ▸ List.mem_cons_self _ _)
      · exact Or.inr (List.mem_cons_of_mem _ h1)
    | some b0 =>
      by_cases hd : descLen b0 < descLen n
      · simp only [hd, if_true] at hb
        rcases ih (some n) hb with h1 | h1
        · simp only [Option.some.injEq] at h1
          exact Or.inr (h1 ▸ List.mem_cons_self _ _)
        · exact Or.inr (List.mem_cons_of_mem _ h1)
      · simp only [hd, if_false] at hb
        rcases ih (some b0) hb with h1 | h1
        · simp only [Option.some.injEq] at h1
          exact Or.inl (by rw [h1])
        · exact Or.inr (List.mem_cons_of_mem _ h1)

/-! Pass-1 invariants: after Pass 1, the remap is the identity on every
surviving (canonical) id, and remap keys are unique. -/

/-- All member ids of a group list. -/
def allIds (gs : List ((String × String) × List NodeRow)) : List String :=
  ((gs.map Prod.snd).flatten).map NodeRow.id

theorem canonize_id (g : List NodeRow) (c0 : NodeRow) : (canonize g c0).id = c0.id := rfl

theorem pass1Step_none {st : DedupState} {kg : (String × String) × List NodeRow}
    (hc : pickCanonical kg.2 = none) : pass1Step st kg = st := by
  unfold pass1Step
  rw [hc]

theorem pass1Step_some {st : DedupState} {kg : (String × String) × List NodeRow}
    {c0 : NodeRow} (hc : pickCanonical kg.2 = some c0) :
    pass1Step st kg =
      { merged := alistSet st.merged (canonize kg.2 c0).id (canonize kg.2 c0),
        remap := kg.2.foldl (fun m ent => alistSet m ent.id (canonize kg.2 c0).id) st.remap,
        gcount := st.gcount } := by
  unfold pass1Step
  rw [hc]

theorem pass1_fold_identity :
    ∀ (gs : List ((String × String) × List NodeRow)) (st : DedupState),
      (allIds gs).Nodup →
      (∀ k ∈ st.merged.map Prod.fst, alistFind st.remap k = some k) →
      (∀ k ∈ st.merged.map Prod.fst, k ∉ allIds gs) →
      ∀ k ∈ (gs.foldl pass1Step st).merged.map Prod.fst,
        alistFind (gs.foldl pass1Step st).remap k = some k := by
  intro gs
  induction gs with
  | nil => intro st _ h2 _; exact h2
  | cons kg rest ih =>
    intro st hnd h2 h3
    have hsplit : allIds (kg :: rest) = kg.2.map NodeRow.id ++ allIds rest := by
      simp [allIds]
    rw [hsplit] at hnd h3
    rw [List.nodup_append] at hnd
    simp only [List.foldl_cons]
    cases hc : pickCanonical kg.2 with
    | none =>
      rw [pass1Step_none hc]
      refine ih st hnd.2.1 h2 ?_
      intro k hk
      have := h3 k hk
      simp only [List.mem_append, not_or] at this
      exact this.2
    | some c0 =>
      have hcmem : c0 ∈ kg.2 := pickCanonical_mem hc
      have hcid : c0.id ∈ kg.2.map NodeRow.id := List.mem_map.mpr ⟨c0, hcmem, rfl⟩
      rw [pass1Step_some hc]
      refine ih _ hnd.2.1 ?_ ?_
      · intro k hk
        rcases alistSet_keys_mem hk with hold | hnew
        · have hknot : k ∉ kg.2.map NodeRow.id := by
            have := h3 k hold
            simp only [List.mem_append, not_or] at this
            exact this.1
          rw [memberFold_find_of_not_mem hknot]
          exact h2 k hold
        · rw [hnew, canonize_id]
          exact memberFold_find_of_mem hcid
      · intro k hk
        rcases alistSet_keys_mem hk with hold | hnew
        · have := h3 k hold
          simp only [List.mem_append, not_or] at this
          exact this.2
        · rw [hnew, canonize_id]
          exact hnd.2.2 hcid

theorem pass1_fold_remap_keys_nodup :
    ∀ (gs : List ((String × String) × List NodeRow)) (st : DedupState),
      (st.remap.map Prod.fst).Nodup →
      ((gs.foldl pass1Step st).remap.map Prod.fst).Nodup := by
  intro gs
  induction gs with
  | nil => intro st h; exact h
  | cons kg rest ih =>
    intro st h
    simp only [List.foldl_cons]
    cases hc : pickCanonical kg.2 with
    | none => rw [pass1Step_none hc]; exact ih st h
    | some c0 =>
      rw [pass1Step_some hc]
      exact ih _ (memberFold_keys_nodup h)

/-- The Pass-2 safety invariant: a remap entry that actually renames always
points away from a surviving entity id. -/
def remapSafe (st : DedupState) : Prop :=
  ∀ kv ∈ st.remap, kv.1 ≠ kv.2 → kv.1 ∉ st.merged.map Prod.fst

/-- There is a renaming remap entry for `k`. -/
def hasBad (st : DedupState) (k : String) : Prop :=
  ∃ v, (k, v) ∈ st.remap ∧ v ≠ k

theorem pass1_remapSafe (ns : List NodeRow) (hids : (ns.map NodeRow.id).Nodup) :
    remapSafe (pass1 ns) := by
  intro kv hkv hne hmem
  have hperm : (allIds (groupNodes ns)).Perm (ns.map NodeRow.id) :=
    (groupNodes_flatten_perm ns).map NodeRow.id
  have hnd : (allIds (groupNodes ns)).Nodup := hperm.nodup_iff.mpr hids
  have hfind := pass1_fold_identity (groupNodes ns)
    { merged := [], remap := [], gcount := 0 } hnd (by simp) (by simp) kv.1 hmem
  have hnd2 := pass1_fold_remap_keys_nodup (groupNodes ns)
    { merged := [], remap := [], gcount := 0 } (by simp)
  have hfound := alistFind_of_mem_nodup hnd2 hkv
  rw [hfind] at hfound
  have : kv.1 = kv.2 := by simpa using hfound
  exact hne this

/-! Pass-2 preserves the safety invariant and never erases a renaming
entry, so a run that ends with zero remap pairs had none after Pass 1
either. -/

theorem alistDrop_keys_ne {m : List (String × α)} {k x : String}
    (h : x ∈ (alistDrop m k).map Prod.fst) : x ∈ m.map Prod.fst ∧ x ≠ k := by
  simp only [alistDrop, List.mem_map] at h
  obtain ⟨kv, hkv, hx⟩ := h
  have hmem := List.mem_of_mem_filter hkv
  have hpred := List.of_mem_filter hkv
  simp only [Bool.not_eq_true', beq_eq_false_iff_ne] at hpred
  exact ⟨List.mem_map.mpr ⟨kv, hmem, hx⟩, hx ▸ hpred⟩

theorem alistFind_keys_mem {m : List (String × α)} {k : String} {v : α}
    (h : alistFind m k = some v) : k ∈ m.map Prod.fst :=
  List.mem_map.mpr ⟨(k, v), alistFind_mem h, rfl⟩

/-- The canonical record after a Pass-2 merge. -/
def mergedCanon (canon other : NodeRow) : NodeRow :=
  { canon with
    aliases := some (pySortedSet
      (((canon.aliases.getD []) ++ [rowLabelOrId other] ++ (other.aliases.getD [])).filter
        (fun a => !(a == rowLabelOrId canon)))),
    description := if descLen canon < descLen other then other.description
      else canon.description }

theorem mergeOther_eq_of_cid_none {st : DedupState} {cid oid : String}
    (hcf : alistFind st.merged cid = none) : mergeOther cid st oid = st := by
  unfold mergeOther
  rw [hcf]

theorem mergeOther_eq_of_oid_none {st : DedupState} {cid oid : String}
    (hof : alistFind st.merged oid = none) : mergeOther cid st oid = st := by
  unfold mergeOther
  rw [hof]
  cases alistFind st.merged cid <;> rfl

theorem mergeOther_eq_some {st : DedupState} {cid oid : String} {canon other : NodeRow}
    (hcf : alistFind st.merged cid = some canon)
    (hof : alistFind st.merged oid = some other) :
    mergeOther cid st oid =
      { merged := alistSet (alistDrop st.merged oid) cid (mergedCanon canon other),
        remap := alistSet
          (st.remap.map (fun kv => if kv.2 == oid then (kv.1, cid) else kv)) oid cid,
        gcount := st.gcount + 1 } := by
  unfold mergeOther mergedCanon
  rw [hcf, hof]

/-- Keys of the merged dict never grow during a Pass-2 merge. -/
theorem mergeOther_keys_subset {st : DedupState} {cid oid : String} {x : String}
    (h : x ∈ (mergeOther cid st oid).merged.map Prod.fst) :
    x ∈ st.merged.map Prod.fst := by
  cases hcf : alistFind st.merged cid with
  | none => rw [mergeOther_eq_of_cid_none hcf] at h; exact h
  | some canon =>
    cases hof : alistFind st.merged oid with
    | none => rw [mergeOther_eq_of_oid_none hof] at h; exact h
    | some other =>
      rw [mergeOther_eq_some hcf hof] at h
      rcases alistSet_keys_mem h with h1 | h1
      · exact (alistDrop_keys_ne h1).1
      · exact h1 ▸ alistFind_keys_mem hcf

theorem mergeOther_remapSafe {st : DedupState} {cid oid : String}
    (hs : remapSafe st) : remapSafe (mergeOther cid st oid) := by
  intro kv hkv hne
  cases hcf : alistFind st.merged cid with
  | none => rw [mergeOther_eq_of_cid_none hcf] at hkv ⊢; exact hs kv hkv hne
  | some canon =>
    cases hof : alistFind st.merged oid with
    | none => rw [mergeOther_eq_of_oid_none hof] at hkv ⊢; exact hs kv hkv hne
    | some other =>
      rw [mergeOther_eq_some hcf hof] at hkv ⊢
      have hcidkeys : cid ∈ st.merged.map Prod.fst := alistFind_keys_mem hcf
      have hoidkeys : oid ∈ st.merged.map Prod.fst := alistFind_keys_mem hof
      intro hmem
      have hx : kv.1 ∈ (alistDrop st.merged oid).map Prod.fst ∨ kv.1 = cid := by
        rcases alistSet_keys_mem hmem with h1 | h1
        · exact Or.inl h1
        · exact Or.inr h1
      rcases mem_alistSet hkv with h1 | ⟨h1, hne1⟩
      · -- kv = (oid, cid)
        have hkv1 : kv.1 = oid := by rw [h1]
        rcases hx with h2 | h2
        · exact absurd (alistDrop_keys_ne h2).2 (by rw [hkv1]; simp)
        · have : oid = cid := by rw [← hkv1, h2]
          have hkv2 : kv.2 = cid := by rw [h1]
          exact hne (by rw [hkv1, hkv2, this])
      · -- kv came from the value-rewrite of some original entry
        simp only [List.mem_map] at h1
        obtain ⟨kv0, hkv0, heq⟩ := h1
        by_cases hv : (kv0.2 == oid) = true
        · simp only [hv, if_true] at heq
          have hk0 : kv0.1 = kv.1 := by rw [← heq]
          have hkcid : kv.2 = cid := by rw [← heq]
          by_cases hself : kv0.1 = kv0.2
          · -- original entry was an identity entry (oid, oid)
            have : kv0.1 = oid := by
              simp only [beq_iff_eq] at hv
              rw [hself, hv]
            exact hne1 (by rw [← hk0, this])
          · have hnot := hs kv0 hkv0 hself
            have : kv.1 ∉ st.merged.map Prod.fst := by rw [← hk0]; exact hnot
            rcases hx with h2 | h2
            · exact this (alistDrop_keys_ne h2).1
            · exact this (h2 ▸ hcidkeys)
        · simp only [hv, Bool.false_eq_true, if_false] at heq
          subst heq
          have hnot := hs kv0 hkv0 hne
          rcases hx with h2 | h2
          · exact hnot (alistDrop_keys_ne h2).1
          · exact hnot (h2 ▸ hcidkeys)

theorem mergeOther_hasBad {st : DedupState} {cid oid k : String}
    (hs : remapSafe st) (hb : hasBad st k) : hasBad (mergeOther cid st oid) k := by
  obtain ⟨v, hv, hvne⟩ := hb
  cases hcf : alistFind st.merged cid with
  | none => rw [mergeOther_eq_of_cid_none hcf]; exact ⟨v, hv, hvne⟩
  | some canon =>
    cases hof : alistFind st.merged oid with
    | none => rw [mergeOther_eq_of_oid_none hof]; exact ⟨v, hv, hvne⟩
    | some other =>
      rw [mergeOther_eq_some hcf hof]
      have hknot : k ∉ st.merged.map Prod.fst :=
        hs (k, v) hv (fun h => hvne h.symm)
      have hkoid : k ≠ oid := fun h => hknot (h ▸ alistFind_keys_mem hof)
      have hkcid : k ≠ cid := fun h => hknot (h ▸ alistFind_keys_mem hcf)
      by_cases hvo : (v == oid) = true
      · refine ⟨cid, ?_, fun h => hkcid h.symm⟩
        apply alistSet_mem_of_ne
        · exact List.mem_map.mpr ⟨(k, v), hv, by simp [hvo]⟩
        · exact hkoid
      · refine ⟨v, ?_, hvne⟩
        apply alistSet_mem_of_ne
        · exact List.mem_map.mpr ⟨(k, v), hv, by simp [hvo]⟩
        · exact hkoid

theorem foldl_mergeOther_remapSafe (cid : String) :
    ∀ (others : List String) (st : DedupState), remapSafe st →
      remapSafe (others.foldl (mergeOther cid) st) := by
  intro others
  induction others with
  | nil => intro st hs; exact hs
  | cons o rest ih =>
    intro st hs
    simp only [List.foldl_cons]
    exact ih _ (mergeOther_remapSafe hs)

theorem foldl_mergeOther_hasBad (cid k : String) :
    ∀ (others : List String) (st : DedupState), remapSafe st → hasBad st k →
      hasBad (others.foldl (mergeOther cid) st) k := by
  intro others
  induction others with
  | nil => intro st _ hb; exact hb
  | cons o rest ih =>
    intro st hs hb
    simp only [List.foldl_cons]
    exact ih _ (mergeOther_remapSafe hs) (mergeOther_hasBad hs hb)

theorem applyMergeGroup_remapSafe {st : DedupState} {g : List String}
    (hs : remapSafe st) : remapSafe (applyMergeGroup st g) := by
  unfold applyMergeGroup
  by_cases h1 : g.length < 2
  · simp only [h1, if_true]; exact hs
  · simp only [h1, if_false]
    by_cases h2 : (g.filter (fun eid => (alistFind st.merged eid).isSome)).length < 2
    · simp only [h2, if_true]; exact hs
    · simp only [h2, if_false]
      cases pySort
          (fun a b =>
            match alistFind st.merged b, alistFind st.merged a with
            | some nb, some na => decide (descLen nb ≤ descLen na)
            | _, _ => true)
          (g.filter (fun eid => (alistFind st.merged eid).isSome)) with
      | nil => exact hs
      | cons canonicalId others => exact foldl_mergeOther_remapSafe canonicalId others st hs

theorem applyMergeGroup_hasBad {st : DedupState} {g : List String} {k : String}
    (hs : remapSafe st) (hb : hasBad st k) : hasBad (applyMergeGroup st g) k := by
  unfold applyMergeGroup
  by_cases h1 : g.length < 2
  · simp only [h1, if_true]; exact hb
  · simp only [h1, if_false]
    by_cases h2 : (g.filter (fun eid => (alistFind st.merged eid).isSome)).length < 2
    · simp only [h2, if_true]; exact hb
    · simp only [h2, if_false]
      cases pySort
          (fun a b =>
            match alistFind st.merged b, alistFind st.merged a with
            | some nb, some na => decide (descLen nb ≤ descLen na)
            | _, _ => true)
          (g.filter (fun eid => (alistFind st.merged eid).isSome)) with
      | nil => exact hb
      | cons canonicalId others => exact foldl_mergeOther_hasBad canonicalId k others st hs hb

theorem pass2_hasBad {st : DedupState} {hc : Bool} {gg : List (List String)} {k : String}
    (hs : remapSafe st) (hb : hasBad st k) : hasBad (pass2 st hc gg) k := by
  unfold pass2
  by_cases h : (hc && decide (10 < st.merged.length)) = true
  · simp only [h, if_true]
    clear h
    induction gg generalizing st with
    | nil => exact hb
    | cons g rest ih =>
      simp only [List.foldl_cons]
      exact ih (applyMergeGroup_remapSafe hs) (applyMergeGroup_hasBad hs hb)
  · simp only [h, Bool.false_eq_true, if_false]
    exact hb

/-- If no renaming pairs remain after both passes, Pass 1 produced none. -/
theorem pass1_identity_of_pairs_empty (ns : List NodeRow) (hc : Bool)
    (gg : List (List String)) (hids : (ns.map NodeRow.id).Nodup)
    (hemp : (pass2 (pass1 ns) hc gg).remap.filter (fun kv => !(kv.1 == kv.2)) = []) :
    ∀ kv ∈ (pass1 ns).remap, kv.1 = kv.2 := by
  intro kv hkv
  by_contra hne
  have hbad : hasBad (pass1 ns) kv.1 := ⟨kv.2, by simpa using hkv, fun h => hne h.symm⟩
  obtain ⟨v, hv, hvne⟩ := pass2_hasBad (pass1_remapSafe ns hids) hbad
  rw [List.filter_eq_nil_iff] at hemp
  have := hemp (kv.1, v) hv
  simp only [Bool.not_eq_true', Bool.not_eq_false, beq_iff_eq] at this
  exact hvne this.symm

/-! The grouping key `(normalized label, type)` is preserved by alias and
description rewrites and by the canonical-record projection, so the
surviving entities keep pairwise-distinct keys. -/

theorem nodeKey_canonize (g : List NodeRow) (c0 : NodeRow) :
    nodeKey (canonize g c0) = nodeKey c0 := rfl

theorem nodeKey_mergedCanon (canon other : NodeRow) :
    nodeKey (mergedCanon canon other) = nodeKey canon := rfl

theorem rowTypeKey_canonicalRecord (n : NodeRow) :
    rowTypeKey (canonicalRecord n) = rowTypeKey n := by
  unfold rowTypeKey canonicalRecord
  cases htp : n.type <;> rfl

theorem nodeKey_canonicalRecord (n : NodeRow) :
    nodeKey (canonicalRecord n) = nodeKey n := by
  unfold nodeKey
  rw [rowTypeKey_canonicalRecord]
  rfl

theorem alistSet_of_not_mem {m : List (String × α)} {k : String} {v : α}
    (h : k ∉ m.map Prod.fst) : alistSet m k v = m ++ [(k, v)] := by
  unfold alistSet
  rw [if_neg]
  intro hc
  rw [List.any_eq_true] at hc
  obtain ⟨p, hp, hpk⟩ := hc
  simp only [beq_iff_eq] at hpk
  exact h (hpk ▸ List.mem_map.mpr ⟨p, hp, rfl⟩)

theorem alistSet_map_eq {m : List (String × α)} {k : String} {v : α} (g : String × α → κ)
    (h : ∀ kv ∈ m, kv.1 = k → g (kv.1, v) = g kv) (hin : k ∈ m.map Prod.fst) :
    (alistSet m k v).map g = m.map g := by
  unfold alistSet
  rw [if_pos]
  · rw [List.map_map]
    apply List.map_congr_left
    intro p hp
    show g (if p.1 == k then (p.1, v) else p) = g p
    by_cases hpk : (p.1 == k) = true
    · rw [if_pos hpk]
      exact h p hp (by simpa using hpk)
    · rw [if_neg hpk]
  · rw [List.any_eq_true]
    simp only [List.mem_map] at hin
    obtain ⟨p, hp, hpk⟩ := hin
    exact ⟨p, hp, by simp [hpk]⟩

/-- Pass 1 keeps the merged keys unique. -/
theorem pass1_fold_merged_keys_nodup :
    ∀ (gs : List ((String × String) × List NodeRow)) (st : DedupState),
      (st.merged.map Prod.fst).Nodup →
      ((gs.foldl pass1Step st).merged.map Prod.fst).Nodup := by
  intro gs
  induction gs with
  | nil => intro st h; exact h
  | cons kg rest ih =>
    intro st h
    simp only [List.foldl_cons]
    cases hc : pickCanonical kg.2 with
    | none => rw [pass1Step_none hc]; exact ih st h
    | some c0 =>
      rw [pass1Step_some hc]
      exact ih _ (alistSet_keys_nodup h)

/-- Pass 1 gives the surviving entities pairwise-distinct grouping keys. -/
theorem pass1_fold_NK :
    ∀ (gs : List ((String × String) × List NodeRow)) (st : DedupState),
      (allIds gs).Nodup →
      ((gs.map Prod.fst)).Nodup →
      (∀ kg ∈ gs, ∀ x ∈ kg.2, nodeKey x = kg.1) →
      (st.merged.map (fun kv => nodeKey kv.2)).Nodup →
      (∀ kv ∈ st.merged, nodeKey kv.2 ∉ gs.map Prod.fst) →
      (∀ k ∈ st.merged.map Prod.fst, k ∉ allIds gs) →
      ((gs.foldl pass1Step st).merged.map (fun kv => nodeKey kv.2)).Nodup := by
  intro gs
  induction gs with
  | nil => intro st _ _ _ h4 _ _; exact h4
  | cons kg rest ih =>
    intro st hnd hkeys hGK h4 h5 h6
    have hsplit : allIds (kg :: rest) = kg.2.map NodeRow.id ++ allIds rest := by
      simp [allIds]
    rw [hsplit] at hnd h6
    rw [List.nodup_append] at hnd
    simp only [List.map_cons, List.nodup_cons] at hkeys
    simp only [List.foldl_cons]
    cases hc : pickCanonical kg.2 with
    | none =>
      rw [pass1Step_none hc]
      refine ih st hnd.2.1 hkeys.2 (fun g hg => hGK g (List.mem_cons_of_mem _ hg)) h4 ?_ ?_
      · intro kv hkv
        have := h5 kv hkv
        simp only [List.map_cons, List.mem_cons, not_or] at this
        exact this.2
      · intro k hk
        have := h6 k hk
        simp only [List.mem_append, not_or] at this
        exact this.2
    | some c0 =>
      have hcmem : c0 ∈ kg.2 := pickCanonical_mem hc
      have hcid : c0.id ∈ kg.2.map NodeRow.id := List.mem_map.mpr ⟨c0, hcmem, rfl⟩
      have hckey : nodeKey c0 = kg.1 := hGK kg (List.mem_cons_self _ _) c0 hcmem
      rw [pass1Step_some hc]
      have hfresh : (canonize kg.2 c0).id ∉ st.merged.map Prod.fst := by
        rw [canonize_id]
        intro hmem
        have := h6 c0.id hmem
        simp only [List.mem_append, not_or] at this
        exact this.1 hcid
      rw [alistSet_of_not_mem hfresh]
      refine ih _ hnd.2.1 hkeys.2 (fun g hg => hGK g (List.mem_cons_of_mem _ hg)) ?_ ?_ ?_
      · rw [List.map_append]
        rw [List.nodup_append]
        refine ⟨h4, by simp, ?_⟩
        intro x hx
        simp only [List.map_cons, List.map_nil, List.mem_singleton]
        intro hxk
        subst hxk
        simp only [List.mem_map] at hx
        obtain ⟨kv, hkv, hkvx⟩ := hx
        have := h5 kv hkv
        simp only [List.map_cons, List.mem_cons, not_or] at this
        apply this.1
        rw [hkvx]
        show nodeKey (canonize kg.2 c0) = kg.1
        rw [nodeKey_canonize, hckey]
      · intro kv hkv
        rcases List.mem_append.mp hkv with h1 | h1
        · have := h5 kv h1
          simp only [List.map_cons, List.mem_cons, not_or] at this
          exact this.2
        · simp only [List.mem_singleton] at h1
          subst h1
          show nodeKey (canonize kg.2 c0) ∉ rest.map Prod.fst
          rw [nodeKey_canonize, hckey]
          exact hkeys.1
      · intro k hk
        rw [List.map_append] at hk
        rcases List.mem_append.mp hk with h1 | h1
        · have := h6 k h1
          simp only [List.mem_append, not_or] at this
          exact this.2
        · simp only [List.map_cons, List.map_nil, List.mem_singleton] at h1
          subst h1
          rw [canonize_id]
          exact hnd.2.2 hcid

/-- Pass-2 merges keep the merged keys unique. -/
theorem mergeOther_merged_keys_nodup {st : DedupState} {cid oid : String}
    (h : (st.merged.map Prod.fst).Nodup) :
    ((mergeOther cid st oid).merged.map Prod.fst).Nodup := by
  cases hcf : alistFind st.merged cid with
  | none => rw [mergeOther_eq_of_cid_none hcf]; exact h
  | some canon =>
    cases hof : alistFind st.merged oid with
    | none => rw [mergeOther_eq_of_oid_none hof]; exact h
    | some other =>
      rw [mergeOther_eq_some hcf hof]
      apply alistSet_keys_nodup
      exact ((List.filter_sublist _).map Prod.fst).nodup h

/-- Pass-2 merges keep the surviving grouping keys pairwise distinct. -/
theorem mergeOther_NK {st : DedupState} {cid oid : String}
    (hkeys : (st.merged.map Prod.fst).Nodup)
    (hnk : (st.merged.map (fun kv => nodeKey kv.2)).Nodup) :
    ((mergeOther cid st oid).merged.map (fun kv => nodeKey kv.2)).Nodup := by
  cases hcf : alistFind st.merged cid with
  | none => rw [mergeOther_eq_of_cid_none hcf]; exact hnk
  | some canon =>
    cases hof : alistFind st.merged oid with
    | none => rw [mergeOther_eq_of_oid_none hof]; exact hnk
    | some other =>
      rw [mergeOther_eq_some hcf hof]
      have hcmem : (cid, canon) ∈ st.merged := alistFind_mem hcf
      have hdropnk : ((alistDrop st.merged oid).map (fun kv => nodeKey kv.2)).Nodup :=
        ((List.filter_sublist _).map (fun kv : String × NodeRow => nodeKey kv.2)).nodup hnk
      by_cases hin : cid ∈ (alistDrop st.merged oid).map Prod.fst
      · rw [alistSet_map_eq (fun kv : String × NodeRow => nodeKey kv.2) ?_ hin]
        · exact hdropnk
        · intro kv hkv hk1
          have hkvmem : kv ∈ st.merged := List.mem_of_mem_filter hkv
          have : kv = (cid, canon) := by
            apply List.inj_on_of_nodup_map hkeys hkvmem hcmem
            simp [hk1]
          rw [this]
          show nodeKey (mergedCanon canon other) = nodeKey canon
          exact nodeKey_mergedCanon canon other
      · rw [alistSet_of_not_mem hin, List.map_append]
        rw [List.nodup_append]
        refine ⟨hdropnk, by simp, ?_⟩
        intro x hx
        simp only [List.map_cons, List.map_nil, List.mem_singleton]
        intro hxk
        subst hxk
        simp only [List.mem_map] at hx
        obtain ⟨kv, hkv, hkvx⟩ := hx
        have hkvmem : kv ∈ st.merged := List.mem_of_mem_filter hkv
        have hkvne : kv.1 ≠ oid := by
          have := List.of_mem_filter hkv
          simpa [Bool.not_eq_true', beq_eq_false_iff_ne] using this
        have heqnk : nodeKey kv.2 = nodeKey canon := by
          rw [hkvx]
          exact (nodeKey_mergedCanon canon other).symm
        have : kv = (cid, canon) := by
          apply List.inj_on_of_nodup_map hnk hkvmem hcmem
          exact heqnk
        -- cid must equal oid here, since cid survived nowhere in the dropped list
        have hcidoid : cid = oid := by
          by_contra hne
          apply hin
          refine List.mem_map.mpr ⟨(cid, canon), ?_, rfl⟩
          apply List.mem_filter.mpr
          refine ⟨hcmem, ?_⟩
          simp [hne]
        exact hkvne (by rw [this, hcidoid])

theorem foldl_mergeOther_NK (cid : String) :
    ∀ (others : List String) (st : DedupState),
      (st.merged.map Prod.fst).Nodup →
      (st.merged.map (fun kv => nodeKey kv.2)).Nodup →
      ((others.foldl (mergeOther cid) st).merged.map Prod.fst).Nodup
      ∧ ((others.foldl (mergeOther cid) st).merged.map (fun kv => nodeKey kv.2)).Nodup := by
  intro others
  induction others with
  | nil => intro st h1 h2; exact ⟨h1, h2⟩
  | cons o rest ih =>
    intro st h1 h2
    simp only [List.foldl_cons]
    exact ih _ (mergeOther_merged_keys_nodup h1) (mergeOther_NK h1 h2)

theorem applyMergeGroup_NK {st : DedupState} {g : List String}
    (h1 : (st.merged.map Prod.fst).Nodup)
    (h2 : (st.merged.map (fun kv => nodeKey kv.2)).Nodup) :
    ((applyMergeGroup st g).merged.map Prod.fst).Nodup
    ∧ ((applyMergeGroup st g).merged.map (fun kv => nodeKey kv.2)).Nodup := by
  unfold applyMergeGroup
  by_cases hl : g.length < 2
  · simp only [hl, if_true]; exact ⟨h1, h2⟩
  · simp only [hl, if_false]
    by_cases hl2 : (g.filter (fun eid => (alistFind st.merged eid).isSome)).length < 2
    · simp only [hl2, if_true]; exact ⟨h1, h2⟩
    · simp only [hl2, if_false]
      cases pySort
          (fun a b =>
            match alistFind st.merged b, alistFind st.merged a with
            | some nb, some na => decide (descLen nb ≤ descLen na)
            | _, _ => true)
          (g.filter (fun eid => (alistFind st.merged eid).isSome)) with
      | nil => exact ⟨h1, h2⟩
      | cons canonicalId others => exact foldl_mergeOther_NK canonicalId others st h1 h2

theorem pass2_NK {st : DedupState} {hc : Bool} {gg : List (List String)}
    (h1 : (st.merged.map Prod.fst).Nodup)
    (h2 : (st.merged.map (fun kv => nodeKey kv.2)).Nodup) :
    ((pass2 st hc gg).merged.map (fun kv => nodeKey kv.2)).Nodup := by
  unfold pass2
  by_cases h : (hc && decide (10 < st.merged.length)) = true
  · simp only [h, if_true]
    clear h
    induction gg generalizing st with
    | nil => exact h2
    | cons g rest ih =>
      simp only [List.foldl_cons]
      exact ih (applyMergeGroup_NK h1 h2).1 (applyMergeGroup_NK h1 h2).2
  · simp only [h, Bool.false_eq_true, if_false]
    exact h2

/-- The key distinctness of the run's surviving canonical records. -/
theorem st2_records_NK (ns : List NodeRow) (hc : Bool) (gg : List (List String))
    (hids : (ns.map NodeRow.id).Nodup) :
    (((pass2 (pass1 ns) hc gg).merged.map (fun kv => canonicalRecord kv.2)).map
      nodeKey).Nodup := by
  have hperm : (allIds (groupNodes ns)).Perm (ns.map NodeRow.id) :=
    (groupNodes_flatten_perm ns).map NodeRow.id
  have hnd : (allIds (groupNodes ns)).Nodup := hperm.nodup_iff.mpr hids
  have hp1keys := pass1_fold_merged_keys_nodup (groupNodes ns)
    { merged := [], remap := [], gcount := 0 } (by simp)
  have hp1nk := pass1_fold_NK (groupNodes ns)
    { merged := [], remap := [], gcount := 0 } hnd (groupNodes_keys_nodup ns)
    (groupNodes_GK ns) (by simp) (by simp) (by simp)
  have h2 := @pass2_NK (pass1 ns) hc gg hp1keys hp1nk
  rw [List.map_map]
  have : ((pass2 (pass1 ns) hc gg).merged.map
      (nodeKey ∘ fun kv => canonicalRecord kv.2))
      = (pass2 (pass1 ns) hc gg).merged.map (fun kv => nodeKey kv.2) := by
    apply List.map_congr_left
    intro kv _
    exact nodeKey_canonicalRecord kv.2
  rw [this]
  exact h2

theorem pass2_nil (st : DedupState) (hc : Bool) : pass2 st hc [] = st := by
  unfold pass2
  split <;> rfl

/-- Whenever Pass 1 records only identity renames and Gemini proposes no
groups, `deduplicate_graph` returns the input unchanged with all counters
zero (first or second early return). -/
theorem deduplicate_graph_noop (ns : List NodeRow) (es : List EdgeRow) (hc : Bool)
    (hid : ∀ kv ∈ (pass1 ns).remap, kv.1 = kv.2) :
    deduplicate_graph ns es hc [] =
      { nodes := ns, edges := es, merged := 0, removed_nodes := 0, removed_edges := 0 } := by
  unfold deduplicate_graph
  by_cases h1 : ns.isEmpty
  · simp [h1]
  · simp only [h1, Bool.false_eq_true, if_false]
    have hrp : (pass2 (pass1 ns) hc []).remap.filter (fun kv => !(kv.1 == kv.2)) = [] := by
      rw [pass2_nil]
      rw [List.filter_eq_nil_iff]
      intro kv hkv
      simp [hid kv hkv]
    have h2 : (((pass2 (pass1 ns) hc []).remap.filter
        (fun kv => !(kv.1 == kv.2))).map Prod.fst).isEmpty := by
      rw [hrp]
      rfl
    rw [if_pos h2]

theorem insertGrouped_fresh (m : List ((String × String) × List NodeRow))
    (k : String × String) (n : NodeRow) (h : k ∉ m.map Prod.fst) :
    insertGrouped m k n = m ++ [(k, [n])] := by
  induction m with
  | nil => rfl
  | cons kg rest ih =>
    obtain ⟨k', g⟩ := kg
    simp only [List.map_cons, List.mem_cons, not_or] at h
    unfold insertGrouped
    rw [if_neg ?_]
    · rw [ih (by exact h.2)]
      rfl
    · simp only [beq_iff_eq]
      exact fun hk => h.1 (hk ▸ rfl)

theorem foldl_insertGrouped_nodup :
    ∀ (ns : List NodeRow) (m : List ((String × String) × List NodeRow)),
      (m.map Prod.fst ++ ns.map nodeKey).Nodup →
      ns.foldl (fun m n => insertGrouped m (nodeKey n) n) m
        = m ++ ns.map (fun n => (nodeKey n, [n])) := by
  intro ns
  induction ns with
  | nil => intro m _; simp
  | cons n rest ih =>
    intro m h
    simp only [List.foldl_cons]
    have hfresh : nodeKey n ∉ m.map Prod.fst := by
      rw [List.nodup_append] at h
      intro hmem
      exact h.2.2 hmem (by simp)
    rw [insertGrouped_fresh m (nodeKey n) n hfresh]
    rw [ih]
    · simp
    · have h2 := h
      simp only [List.map_cons] at h2
      rw [List.append_cons] at h2
      simpa [List.map_append, List.append_assoc] using h2

/-- With pairwise-distinct grouping keys, grouping yields singleton groups. -/
theorem groupNodes_of_nodup_keys (ns : List NodeRow)
    (h : (ns.map nodeKey).Nodup) :
    groupNodes ns = ns.map (fun n => (nodeKey n, [n])) := by
  unfold groupNodes
  have := foldl_insertGrouped_nodup ns [] (by simpa using h)
  simpa using this

theorem pass1_fold_id :
    ∀ (ls : List NodeRow) (st : DedupState),
      (∀ kv ∈ st.remap, kv.1 = kv.2) →
      ∀ kv ∈ ((ls.map (fun n => (nodeKey n, [n]))).foldl pass1Step st).remap,
        kv.1 = kv.2 := by
  intro ls
  induction ls with
  | nil => intro st h; exact h
  | cons n rest ih =>
    intro st h
    simp only [List.map_cons, List.foldl_cons]
    apply ih
    intro kv hkv
    rw [pass1Step_some (show pickCanonical [n] = some n from rfl)] at hkv
    simp only [List.foldl_cons, List.foldl_nil] at hkv
    rcases mem_alistSet hkv with h1 | h1
    · rw [h1]
      rfl
    · exact h kv h1.1

/-- Distinct grouping keys make Pass 1 record only identity renames. -/
theorem pass1_remap_id_of_nodup_keys (ns : List NodeRow)
    (h : (ns.map nodeKey).Nodup) :
    ∀ kv ∈ (pass1 ns).remap, kv.1 = kv.2 := by
  unfold pass1
  rw [groupNodes_of_nodup_keys ns h]
  exact pass1_fold_id ns { merged := [], remap := [], gcount := 0 } (by simp)

/-- C6 (amended): `deduplicate_graph` is idempotent across its heuristic pass:
for any graph with distinct node ids, rerunning it on a run's output with no
Gemini merge groups returns the output unchanged with zero merges and zero
node/edge removals. (The Gemini pass is an external oracle: with a live
client and more than 10 surviving entities, a second run can still perform
merges if Gemini proposes new groups — see the counterexample.) -/
theorem deduplicate_graph_idempotent (ns : List NodeRow) (es : List EdgeRow)
    (hc : Bool) (g1 : List (List String)) (hids : (ns.map NodeRow.id).Nodup) :
    deduplicate_graph (deduplicate_graph ns es hc g1).nodes
        (deduplicate_graph ns es hc g1).edges hc []
      = { nodes := (deduplicate_graph ns es hc g1).nodes,
          edges := (deduplicate_graph ns es hc g1).edges,
          merged := 0, removed_nodes := 0, removed_edges := 0 } := by
  by_cases h1 : ns.isEmpty
  · have hr : deduplicate_graph ns es hc g1 =
        { nodes := ns, edges := es, merged := 0,
          removed_nodes := 0, removed_edges := 0 } := by
      unfold deduplicate_graph
      rw [if_pos h1]
    rw [hr]
    apply deduplicate_graph_noop
    intro kv hkv
    rw [List.isEmpty_iff] at h1
    subst h1
    simp [pass1, groupNodes] at hkv
  · by_cases h2 : (((pass2 (pass1 ns) hc g1).remap.filter
        (fun kv => !(kv.1 == kv.2))).map Prod.fst).isEmpty
    · have hr : deduplicate_graph ns es hc g1 =
          { nodes := ns, edges := es, merged := 0,
            removed_nodes := 0, removed_edges := 0 } := by
        unfold deduplicate_graph
        simp only [h1, Bool.false_eq_true, if_false]
        rw [if_pos h2]
      rw [hr]
      apply deduplicate_graph_noop
      apply pass1_identity_of_pairs_empty ns hc g1 hids
      rw [List.isEmpty_iff] at h2
      exact List.map_eq_nil_iff.mp h2
    · have hnodes : (deduplicate_graph ns es hc g1).nodes
          = (pass2 (pass1 ns) hc g1).merged.map (fun kv => canonicalRecord kv.2) := by
        unfold deduplicate_graph
        simp only [h1, Bool.false_eq_true, if_false]
        rw [if_neg h2]
      apply deduplicate_graph_noop
      apply pass1_remap_id_of_nodup_keys
      rw [hnodes]
      exact st2_records_NK ns hc g1 hids

def c6Node (i : Nat) : NodeRow :=
  { id := "e" ++ toString i, label := some ("Entity " ++ toString i),
    type := some "PERSON", description := some "d", aliases := some [] }

def c6Nodes : List NodeRow := (List.range 11).map (fun i => c6Node (i + 1))

/-- A second `deduplicate_graph` run is not idempotent in general: on eleven
distinct entities a first run with no Gemini groups changes nothing, yet a
second run in which Gemini proposes merging `e1` and `e2` performs one merge
and removes a node. -/
theorem deduplicate_graph_idempotent_counterexample :
    deduplicate_graph c6Nodes [] true []
      = { nodes := c6Nodes, edges := [], merged := 0,
          removed_nodes := 0, removed_edges := 0 }
    ∧ (deduplicate_graph (deduplicate_graph c6Nodes [] true []).nodes
        (deduplicate_graph c6Nodes [] true []).edges true [["e1", "e2"]]).merged = 1
    ∧ (deduplicate_graph (deduplicate_graph c6Nodes [] true []).nodes
        (deduplicate_graph c6Nodes [] true []).edges true
        [["e1", "e2"]]).removed_nodes = 1 := by
  refine ⟨by decide, by decide, by decide⟩

def c6DupA : NodeRow :=
  { id := "p1", label := some "Jane Doe", type := some "PERSON",
    description := some "long description", aliases := some [] }

def c6DupB : NodeRow :=
  { id := "p2", label := some "Jane Doe", type := some "person",
    description := some "short", aliases := some ["JD"] }

def c6Solo : NodeRow :=
  { id := "p3", label := some "Acme Corp", type := some "ORG",
    description := none, aliases := none }

def c6Edges : List EdgeRow :=
  [{ id := "g1", source := "p2", target := "p3", predicate := "works_at" },
   { id := "g2", source := "p1", target := "p2", predicate := "knows" }]

/-! ## Investigation pipeline (`investigator.run_investigation`)

The streamed pipeline is embedded as a pure function from an oracle world —
the behaviour of the text model, the vector index, the relational store and
the reranker on this run — to the emitted SSE event list, the external calls
made, and the accumulated evidence.  Result dicts are assumed well formed
(`source`/`target` present on edge rows); absent optional keys are `none`. -/

/-- A context chunk as consumed by `_add_chunks` and the synthesis context
builder: the `text`, `filename` and `page` fields of a result dict. -/
structure IChunk where
  text : String
  filename : String
  page : String
deriving DecidableEq, Repr

/-- The dedup signature `re.sub(r'\s+', ' ', c["text"][:500]).strip()`. -/
def chunkSig (s : String) : String :=
  ⟨pyStripL (collapseWs (s.data.take 500))⟩

/-- `_add_chunks`: append each chunk whose signature is unseen, recording the
signature in `seen_texts` (the second component). -/
def addChunks (st : List IChunk × List String) (chunks : List IChunk) :
    List IChunk × List String :=
  chunks.foldl (fun st c =>
    let sig := chunkSig c.text
    if st.2.contains sig then st else (st.1 ++ [c], st.2 ++ [sig])) st

inductive IStatus
  | running
  | done
  | error
deriving DecidableEq, Repr

/-- One SSE event, with the payloads the claims talk about. -/
inductive IEvent
  | step (name : String) (status : IStatus)
  | text (s : String)
  | sources
  | webSources
  | followUps
  | done
deriving DecidableEq, Repr

/-- One call to an external collaborator. -/
inductive ExtCall
  | analysisCall
  | intelCall
  | bfsCall
  | semPass (idx : Nat)
  | kwNamePass (idx : Nat)
  | kwSearchCall
  | genStream
  | followUpCall
deriving DecidableEq, Repr

/-- The parsed query-analysis JSON. -/
structure AnalysisRes where
  primary_entity : String
  secondary_entities : List String
  key_terms : List String
  reformulated_queries : List String
deriving DecidableEq, Repr

/-- The `lookup_entity_intel` result. -/
structure IntelRes where
  found : Bool
  entity_id : String
  entity_name : String
  entity_type : String
  description : Option String
  aliases : List String
  edge_count : Nat
  connected_labels : List String
  relationship_types : List String
deriving DecidableEq, Repr

/-- A graph-evidence row (`bfs_collect_evidence` / `keyword_search_evidence`). -/
structure EvEdge where
  source : String
  target : String
  predicate : Option String
  evidence_text : Option String
  source_filename : Option String
deriving DecidableEq, Repr

/-- The oracle world: what every external collaborator returns on this run.
An `Except.error` carries the exception's type name. -/
structure InvWorld where
  analysis : Except String AnalysisRes
  intel : Except String IntelRes
  graphEv : Except String (List EvEdge)
  pass1 : Except String (List IChunk)
  pass2 : Except String (List IChunk)
  pass3 : Except String (List IChunk)
  kwPass : List (List IChunk)
  hasSupabase : Bool
  kwEdges : Except String (List EvEdge)
  synthesisChunks : List String
  synthesisErr : Option String
  webSources : List (String × String)
  followUps : Except String (Option (List String))
  crash : Option (Nat × String)

/-- Everything phases A–E compute: branch flags, evidence, the error log,
and the chunk batches handed to `_add_chunks`. -/
structure CoreOut where
  aFailed : Bool
  primary : String
  secondary : List String
  reformulated : List String
  intelOk : Bool
  intelFound : Bool
  discovered : List String
  rels : List String
  bfsOk : Bool
  graphEvidence : List EvEdge
  runP2 : Bool
  runP3 : Bool
  dFailed : Bool
  batches : List (List IChunk)
  pool : List IChunk
  nNames : Nat
  doKw : Bool
  kwFailed : Bool
  kwResults : List EvEdge
  errorsLog : List String
deriving DecidableEq, Repr

/-- Phases A–E of `_run_investigation_inner` (everything before synthesis). -/
def innerCore (w : InvWorld) (query : String) : CoreOut :=
  let aFailed := match w.analysis with | .ok _ => false | .error _ => true
  let primary : String :=
    match w.analysis with | .ok a => ⟨pyStripL a.primary_entity.data⟩ | .error _ => ""
  let secondary := match w.analysis with | .ok a => a.secondary_entities | .error _ => []
  let reformulated :=
    match w.analysis with | .ok a => a.reformulated_queries | .error _ => []
  let logA : List String := match w.analysis with
    | .ok _ => []
    | .error ty => ["Query Analysis: " ++ ty ++ " — fell back to raw query"]
  let hasEntity := primary != ""
  let intelOk := match w.intel with | .ok _ => true | .error _ => false
  let intelFound :=
    hasEntity && (match w.intel with | .ok i => i.found | .error _ => false)
  let discovered := if intelFound then
      (match w.intel with | .ok i => i.connected_labels | .error _ => []) else []
  let rels := if intelFound then
      (match w.intel with | .ok i => i.relationship_types | .error _ => []) else []
  let logB := logA ++ (if hasEntity && !intelOk then
      (match w.intel with
       | .error ty => ["Entity Intel: " ++ ty ++ " — entity profile unavailable"]
       | .ok _ => []) else [])
  let bfsOk := match w.graphEv with | .ok _ => true | .error _ => false
  let graphEvidence := if intelFound then
      (match w.graphEv with | .ok l => l | .error _ => []) else []
  let logC := logB ++ (if intelFound && !bfsOk then
      (match w.graphEv with
       | .error ty => ["Graph Traversal: " ++ ty ++ " — graph evidence unavailable"]
       | .ok _ => []) else [])
  let b1 := match w.pass1 with | .ok rs => rs | .error _ => []
  let errsD1 : List String :=
    match w.pass1 with | .ok _ => [] | .error e => ["Pass 1: " ++ e]
  let ropt : Option String :=
    if 2 ≤ reformulated.length then
      some (reformulated.getD 0 "" ++ " " ++ reformulated.getD 1 "")
    else if reformulated.length != 0 then some (reformulated.getD 0 "")
    else if discovered.length != 0 then
      some (query ++ " " ++ String.intercalate " " (discovered.take 3))
    else none
  let runP2 := truthyOpt ropt
  let b2 := if runP2 then
      (match w.pass2 with | .ok rs => rs | .error _ => []) else []
  let errsD2 := errsD1 ++ (if runP2 then
      (match w.pass2 with | .ok _ => [] | .error e => ["Pass 2: " ++ e]) else [])
  let topConnected : Option String :=
    if discovered.length != 0 then some (discovered.getD 0 "")
    else if secondary.length != 0 then some (secondary.getD 0 "")
    else none
  let p3q : Option String :=
    if truthyOpt topConnected && (primary != "") then
      some (primary ++ " " ++ topConnected.getD "")
    else if 3 ≤ reformulated.length then some (reformulated.getD 2 "")
    else if 2 ≤ reformulated.length && !(truthyOpt topConnected) then
      some (reformulated.getD 1 "")
    else none
  let runP3 := truthyOpt p3q
  let b3 := if runP3 then
      (match w.pass3 with | .ok rs => rs | .error _ => []) else []
  let errsD := errsD2 ++ (if runP3 then
      (match w.pass3 with | .ok _ => [] | .error e => ["Pass 3: " ++ e]) else [])
  let logD := logC ++ (if errsD.length != 0 then
      ["Semantic Search: " ++ toString errsD.length ++ " pass(es) failed — "
        ++ String.intercalate "; " errsD] else [])
  let st3 := [b1, b2, b3].foldl addChunks ([], [])
  let dFailed := errsD.length != 0 && st3.1.isEmpty
  let names0 := (if primary != "" then [primary] else [])
    ++ secondary.take 2 ++ discovered.take 2
  let searchNames := names0.filter (fun n => decide (2 < n.length))
  let nNames := min 3 searchNames.length
  let kwBatches := (List.range nNames).map (fun i => w.kwPass.getD i [])
  let batches := [b1, b2, b3] ++ kwBatches
  let poolSt := batches.foldl addChunks ([], [])
  let doKw := w.hasSupabase && !searchNames.isEmpty
  let kwFailed := doKw && (match w.kwEdges with | .ok _ => false | .error _ => true)
  let kwResults := if doKw then
      (match w.kwEdges with | .ok l => l | .error _ => []) else []
  let logE := logD ++ (if kwFailed then
      (match w.kwEdges with
       | .error ty => ["Keyword Search: " ++ ty ++ " — keyword matches unavailable"]
       | .ok _ => []) else [])
  { aFailed := aFailed, primary := primary, secondary := secondary,
    reformulated := reformulated, intelOk := intelOk, intelFound := intelFound,
    discovered := discovered, rels := rels, bfsOk := bfsOk,
    graphEvidence := graphEvidence, runP2 := runP2, runP3 := runP3,
    dFailed := dFailed, batches := batches, pool := poolSt.1, nNames := nNames,
    doKw := doKw, kwFailed := kwFailed, kwResults := kwResults,
    errorsLog := logE }

/-- `_truncate_at_sentence`. -/
def truncateAtSentence (text : String) (maxLen : Nat) : String :=
  if text.length ≤ maxLen then text
  else
    let truncated : List Char := text.data.take maxLen
    let lastPeriod : Int := match truncated.reverse.findIdx? (· == '.') with
      | none => -1
      | some i => ((truncated.length - 1 - i : Nat) : Int)
    let lastNewline : Int := match truncated.reverse.findIdx? (· == '\n') with
      | none => -1
      | some i => ((truncated.length - 1 - i : Nat) : Int)
    let boundary := max lastPeriod lastNewline
    if ((maxLen / 2 : Nat) : Int) < boundary then ⟨truncated.take (boundary + 1).toNat⟩
    else ⟨truncated⟩

/-- One document-chunk context block. -/
def chunkPart (c : IChunk) : String :=
  "[Source: " ++ c.filename ++ ", Page: " ++ c.page ++ "]\n"
    ++ truncateAtSentence c.text 1200

/-- The knowledge-graph context block. -/
def graphCtx (gev : List EvEdge) : String :=
  "\n\nKNOWLEDGE GRAPH EVIDENCE:\n" ++ String.join
    ((gev.take 30).map (fun e =>
      match e.evidence_text with
      | some ev =>
        if ev != "" then
          "[Source: " ++ e.source_filename.getD "graph" ++ ", Relationship: "
            ++ e.predicate.getD "related" ++ "]\n"
          ++ e.source ++ " --[" ++ e.predicate.getD "related" ++ "]--> "
            ++ e.target ++ ": " ++ ev ++ "\n\n"
        else ""
      | none => ""))

/-- The entity-profile context block. -/
def intelCtx (i : IntelRes) (discovered rels : List String) : String :=
  "\n\nENTITY PROFILE: " ++ i.entity_name ++ "\n"
  ++ "Type: " ++ i.entity_type ++ "\n"
  ++ "Description: " ++ i.description.getD "N/A" ++ "\n"
  ++ "Aliases: " ++ String.intercalate ", " i.aliases ++ "\n"
  ++ "Total connections: " ++ toString i.edge_count ++ "\n"
  ++ "Connected entities: " ++ String.intercalate ", " (discovered.take 15) ++ "\n"
  ++ "Relationship types: " ++ String.intercalate ", " (rels.take 10) ++ "\n"

/-- The keyword-matches context block. -/
def kwCtx (kws : List EvEdge) : String :=
  "\n\nKEYWORD MATCHES IN EVIDENCE:\n" ++ String.join
    ((kws.take 10).map (fun e =>
      "- " ++ e.source ++ " --[" ++ e.predicate.getD "?" ++ "]--> " ++ e.target
        ++ ": " ++ (⟨(e.evidence_text.getD "").data.take 300⟩ : String) ++ "\n"))

/-- The DATA GAPS trailer appended when some phase logged an error. -/
def gapsText (logs : List String) : String :=
  "\n\nDATA GAPS (some pipeline phases failed — caveat findings accordingly):\n"
  ++ String.join (logs.map (fun m => "- " ++ m ++ "\n"))

/-- The text event emitted when no context at all was accumulated. -/
def noInfoMsg : String :=
  "No relevant information was found in the database for this query. Try uploading documents first, or rephrase your query with more specific terms."

def innerContextParts (w : InvWorld) (c : CoreOut) : List String :=
  c.pool.map chunkPart
  ++ (if c.graphEvidence.isEmpty then [] else [graphCtx c.graphEvidence])
  ++ (if c.intelFound then
        (match w.intel with
         | .ok i => [intelCtx i c.discovered c.rels]
         | .error _ => []) else [])
  ++ (if c.kwResults.isEmpty then [] else [kwCtx c.kwResults])

def innerFullContext (w : InvWorld) (c : CoreOut) : String :=
  let f0 := String.intercalate "\n\n---\n\n" (innerContextParts w c)
  if c.errorsLog.isEmpty then f0 else f0 ++ gapsText c.errorsLog

/-- Phase A events. -/
def evA (failed : Bool) : List IEvent :=
  [.step "query_analysis" .running,
   .step "query_analysis" (if failed then .error else .done)]

/-- Phase B events: the skipped branch emits `done` with no `running`;
the exception branch emits `error` with no `done`. -/
def evB (hasEntity intelOk : Bool) : List IEvent :=
  if hasEntity then
    [.step "entity_intel" .running,
     .step "entity_intel" (if intelOk then .done else .error)]
  else [.step "entity_intel" .done]

/-- Phase C events (same shape as phase B). -/
def evC (intelFound bfsOk : Bool) : List IEvent :=
  if intelFound then
    [.step "graph_traversal" .running,
     .step "graph_traversal" (if bfsOk then .done else .error)]
  else [.step "graph_traversal" .done]

/-- Phase D events: the initial `running` plus two `running` heartbeats. -/
def evD (dFailed : Bool) : List IEvent :=
  [.step "semantic_search" .running,
   .step "semantic_search" .running,
   .step "semantic_search" .running,
   .step "semantic_search" (if dFailed then .error else .done)]

/-- Phase E events. -/
def evE (kwFailed : Bool) : List IEvent :=
  [.step "keyword_search" .running,
   .step "keyword_search" (if kwFailed then .error else .done)]

/-- Phase F events: synthesis running, then either the no-context early
return or the streamed report with trailers, always ending in `done`. -/
def evF (noCtx modeWeb : Bool) (texts : List String) (synthErr : Option String)
    (webEmpty followOk : Bool) : List IEvent :=
  .step "synthesis" .running ::
  (if noCtx then [.text noInfoMsg, .step "synthesis" .done, .done]
   else
    (if modeWeb then [.step "web_search" .running] else [])
    ++ texts.map IEvent.text
    ++ (match synthErr with
        | some e => [.text ("\n\n**Report generation error:** " ++ e),
                     .step "synthesis" .error]
        | none => [.step "synthesis" .done])
    ++ (if modeWeb then
          [.step "web_search" .done] ++ (if webEmpty then [] else [.webSources])
        else [])
    ++ [.sources]
    ++ (if followOk then [.followUps] else [])
    ++ [.done])

/-- The external calls of a run, in order. -/
def innerCalls (c : CoreOut) (noCtx : Bool) : List ExtCall :=
  [.analysisCall]
  ++ (if c.primary != "" then [.intelCall] else [])
  ++ (if c.intelFound then [.bfsCall] else [])
  ++ [.semPass 1]
  ++ (if c.runP2 then [.semPass 2] else [])
  ++ (if c.runP3 then [.semPass 3] else [])
  ++ (List.range c.nNames).map ExtCall.kwNamePass
  ++ (if c.doKw then [.kwSearchCall] else [])
  ++ (if noCtx then [] else [.genStream, .followUpCall])

structure InnerOut where
  events : List IEvent
  calls : List ExtCall
  pool : List IChunk
  graphEvidence : List EvEdge
  intelFound : Bool
  kwResults : List EvEdge
  errorsLog : List String
deriving DecidableEq, Repr

/-- `_run_investigation_inner` as a pure function of the oracle world. -/
def _run_investigation_inner (w : InvWorld) (query mode : String) : InnerOut :=
  let c := innerCore w query
  let noCtx := (⟨pyStripL (innerFullContext w c).data⟩ : String) == ""
  let followOk := match w.followUps with | .ok (some _) => true | _ => false
  { events := evA c.aFailed ++ evB (c.primary != "") c.intelOk
      ++ evC c.intelFound c.bfsOk ++ evD c.dFailed ++ evE c.kwFailed
      ++ evF noCtx (mode == "files_web") w.synthesisChunks w.synthesisErr
          (keepFirstBy Prod.snd w.webSources).isEmpty followOk,
    calls := innerCalls c noCtx,
    pool := c.pool,
    graphEvidence := c.graphEvidence,
    intelFound := c.intelFound,
    kwResults := c.kwResults,
    errorsLog := c.errorsLog }

/-- `run_investigation`: the outermost boundary catches a crash raised while
the inner generator is still running (so after any proper prefix of its
events) and converts it into a final error text plus `done`. -/
def run_investigation (w : InvWorld) (query mode : String) : InnerOut :=
  let inner := _run_investigation_inner w query mode
  match w.crash with
  | none => inner
  | some (k, ty) =>
    { inner with events :=
        inner.events.take (min k (inner.events.length - 1))
        ++ [.text ("\n\n**Pipeline error:** " ++ ty), .done] }

theorem deduplicate_graph_idempotent_witness :
    (([c6DupA, c6DupB, c6Solo].map NodeRow.id).Nodup)
    ∧ deduplicate_graph
        (deduplicate_graph [c6DupA, c6DupB, c6Solo] c6Edges false []).nodes
        (deduplicate_graph [c6DupA, c6DupB, c6Solo] c6Edges false []).edges false []
      = { nodes := (deduplicate_graph [c6DupA, c6DupB, c6Solo] c6Edges false []).nodes,
          edges := (deduplicate_graph [c6DupA, c6DupB, c6Solo] c6Edges false []).edges,
          merged := 0, removed_nodes := 0, removed_edges := 0 } :=
  ⟨by decide, deduplicate_graph_idempotent [c6DupA, c6DupB, c6Solo] c6Edges false []
    (by decide)⟩

/-! ## C8: evidence-pool deduplication -/

/-- The `_add_chunks` state invariant: `seen_texts` is exactly the set of
signatures of the pool, and those signatures are pairwise distinct. -/
def AddInv (st : List IChunk × List String) : Prop :=
  st.2 = st.1.map (fun c => chunkSig c.text)
  ∧ (st.1.map (fun c => chunkSig c.text)).Nodup

theorem addChunks_cons (st : List IChunk × List String) (c : IChunk)
    (rest : List IChunk) :
    addChunks st (c :: rest) = addChunks
      (if st.2.contains (chunkSig c.text) then st
       else (st.1 ++ [c], st.2 ++ [chunkSig c.text])) rest := rfl

theorem addChunks_inv (b : List IChunk) :
    ∀ st, AddInv st → AddInv (addChunks st b) := by
  induction b with
  | nil => intro st h; exact h
  | cons c rest ih =>
    intro st h
    rw [addChunks_cons]
    apply ih
    by_cases hc : st.2.contains (chunkSig c.text) = true
    · rw [if_pos hc]; exact h
    · rw [if_neg hc]
      obtain ⟨hs, hn⟩ := h
      constructor
      · simp [hs]
      · rw [List.map_append]
        simp only [List.map_cons, List.map_nil]
        rw [List.nodup_append]
        refine ⟨hn, by simp, ?_⟩
        intro x hx
        simp only [List.mem_singleton]
        intro hxe
        subst hxe
        apply hc
        rw [hs]
        exact List.elem_eq_true_of_mem hx

theorem foldl_addChunks_inv (bs : List (List IChunk)) :
    ∀ st, AddInv st → AddInv (bs.foldl addChunks st) := by
  induction bs with
  | nil => intro st h; exact h
  | cons b rest ih =>
    intro st h
    exact ih _ (addChunks_inv b st h)

theorem innerCore_pool (w : InvWorld) (q : String) :
    (innerCore w q).pool = ((innerCore w q).batches.foldl addChunks ([], [])).1 := rfl

/-- C8: two chunks whose texts agree up to whitespace normalization of their
first 500 characters contribute one entry: starting from the empty pool,
after every `_add_chunks` addition — whichever phase or pass produced the
batch — the accumulated chunks have pairwise-distinct signatures, and in
particular the final pool of `_run_investigation_inner` does. -/
theorem evidence_pool_dedup :
    (∀ batches : List (List IChunk),
      ((batches.foldl addChunks ([], [])).1.map (fun c => chunkSig c.text)).Nodup)
  ∧ (∀ (w : InvWorld) (q m : String),
      ((_run_investigation_inner w q m).pool.map (fun c => chunkSig c.text)).Nodup) := by
  have hgen : ∀ batches : List (List IChunk),
      ((batches.foldl addChunks ([], [])).1.map (fun c => chunkSig c.text)).Nodup :=
    fun batches => (foldl_addChunks_inv batches ([], []) ⟨rfl, List.nodup_nil⟩).2
  refine ⟨hgen, ?_⟩
  intro w q m
  show ((innerCore w q).pool.map (fun c => chunkSig c.text)).Nodup
  rw [innerCore_pool]
  exact hgen (innerCore w q).batches

/-! ## C1: event ordering -/

/-- Select the status carried by a `step_status` event for step `s`. -/
def stepF (s : String) : IEvent → Option IStatus
  | .step n st => if n == s then some st else none
  | _ => none

/-- The statuses of all `step_status` events of step `s`, in emission order. -/
def stepStatuses (evs : List IEvent) (s : String) : List IStatus :=
  evs.filterMap (stepF s)

/-- A step's status sequence is well formed: zero or more `running`
followed by exactly one `done` or `error` (or no events at all). -/
def okSeq (l : List IStatus) : Prop :=
  l = [] ∨ ∃ k t, (t = IStatus.done ∨ t = IStatus.error)
    ∧ l = List.replicate k IStatus.running ++ [t]

theorem stepStatuses_append (a b : List IEvent) (s : String) :
    stepStatuses (a ++ b) s = stepStatuses a s ++ stepStatuses b s :=
  List.filterMap_append a b (stepF s)

theorem filterMap_stepF_textMap (texts : List String) (s : String) :
    (texts.map IEvent.text).filterMap (stepF s) = [] := by
  induction texts with
  | nil => rfl
  | cons t rest ih => simp [List.filterMap_cons, stepF, ih]

theorem done_not_mem_textMap (texts : List String) :
    IEvent.done ∉ texts.map IEvent.text := by
  intro h
  obtain ⟨t, _, ht⟩ := List.mem_map.mp h
  cases ht

theorem done_not_mem_evA (f : Bool) : IEvent.done ∉ evA f := by
  cases f <;> decide

theorem done_not_mem_evB (a b : Bool) : IEvent.done ∉ evB a b := by
  cases a <;> cases b <;> decide

theorem done_not_mem_evC (a b : Bool) : IEvent.done ∉ evC a b := by
  cases a <;> cases b <;> decide

theorem done_not_mem_evD (d : Bool) : IEvent.done ∉ evD d := by
  cases d <;> decide

theorem done_not_mem_evE (k : Bool) : IEvent.done ∉ evE k := by
  cases k <;> decide

/-- Phase F always ends in the terminal `done`, which appears nowhere
earlier in it. -/
theorem evF_shape (noCtx modeWeb : Bool) (texts : List String)
    (synthErr : Option String) (webEmpty followOk : Bool) :
    ∃ pre, evF noCtx modeWeb texts synthErr webEmpty followOk = pre ++ [IEvent.done]
      ∧ IEvent.done ∉ pre := by
  cases noCtx with
  | true =>
    refine ⟨[.step "synthesis" .running, .text noInfoMsg,
      .step "synthesis" IStatus.done], rfl, ?_⟩
    decide
  | false =>
    refine ⟨.step "synthesis" IStatus.running ::
      ((if modeWeb then [.step "web_search" IStatus.running] else [])
        ++ texts.map IEvent.text
        ++ (match synthErr with
            | some e => [.text ("\n\n**Report generation error:** " ++ e),
                         .step "synthesis" IStatus.error]
            | none => [.step "synthesis" IStatus.done])
        ++ (if modeWeb then
              [.step "web_search" IStatus.done]
                ++ (if webEmpty then [] else [.webSources])
            else [])
        ++ [.sources]
        ++ (if followOk then [.followUps] else [])), ?_, ?_⟩
    · rfl
    · cases modeWeb <;> cases synthErr <;> cases webEmpty <;> cases followOk <;>
        simp [done_not_mem_textMap]

theorem inner_events_eq (w : InvWorld) (q m : String) :
    (_run_investigation_inner w q m).events
      = evA (innerCore w q).aFailed
        ++ evB ((innerCore w q).primary != "") (innerCore w q).intelOk
        ++ evC (innerCore w q).intelFound (innerCore w q).bfsOk
        ++ evD (innerCore w q).dFailed
        ++ evE (innerCore w q).kwFailed
        ++ evF ((⟨pyStripL (innerFullContext w (innerCore w q)).data⟩ : String) == "")
            (m == "files_web") w.synthesisChunks w.synthesisErr
            (keepFirstBy Prod.snd w.webSources).isEmpty
            (match w.followUps with | .ok (some _) => true | _ => false) := rfl

theorem inner_calls_eq (w : InvWorld) (q m : String) :
    (_run_investigation_inner w q m).calls
      = innerCalls (innerCore w q)
          ((⟨pyStripL (innerFullContext w (innerCore w q)).data⟩ : String) == "") := rfl

/-- The inner generator yields the terminal `done` exactly once, last. -/
theorem inner_shape (w : InvWorld) (q m : String) :
    ∃ pre, (_run_investigation_inner w q m).events = pre ++ [IEvent.done]
      ∧ IEvent.done ∉ pre := by
  obtain ⟨pf, hpf, hnf⟩ := evF_shape
    ((⟨pyStripL (innerFullContext w (innerCore w q)).data⟩ : String) == "")
    (m == "files_web") w.synthesisChunks w.synthesisErr
    (keepFirstBy Prod.snd w.webSources).isEmpty
    (match w.followUps with | .ok (some _) => true | _ => false)
  refine ⟨evA (innerCore w q).aFailed
    ++ evB ((innerCore w q).primary != "") (innerCore w q).intelOk
    ++ evC (innerCore w q).intelFound (innerCore w q).bfsOk
    ++ evD (innerCore w q).dFailed ++ evE (innerCore w q).kwFailed ++ pf, ?_, ?_⟩
  · rw [inner_events_eq, hpf]
    simp [List.append_assoc]
  · intro hm
    simp only [List.mem_append] at hm
    rcases hm with ((((h | h) | h) | h) | h) | h
    · exact done_not_mem_evA _ h
    · exact done_not_mem_evB _ _ h
    · exact done_not_mem_evC _ _ h
    · exact done_not_mem_evD _ h
    · exact done_not_mem_evE _ h
    · exact hnf h

/-- Also with the crash handler in front: `done` exactly once, last. -/
theorem run_shape (w : InvWorld) (q m : String) :
    ∃ pre, (run_investigation w q m).events = pre ++ [IEvent.done]
      ∧ IEvent.done ∉ pre := by
  obtain ⟨pre, hpre, hnm⟩ := inner_shape w q m
  unfold run_investigation
  cases hcr : w.crash with
  | none => exact ⟨pre, hpre, hnm⟩
  | some p =>
    obtain ⟨k, ty⟩ := p
    refine ⟨(_run_investigation_inner w q m).events.take
        (min k ((_run_investigation_inner w q m).events.length - 1))
      ++ [.text ("\n\n**Pipeline error:** " ++ ty)], by simp, ?_⟩
    intro hm
    rcases List.mem_append.mp hm with h | h
    · rw [hpre] at h
      have hlen : min k ((pre ++ [IEvent.done]).length - 1) ≤ pre.length := by
        simp
      rw [List.take_append_of_le_length hlen] at h
      exact hnm (List.take_subset _ _ h)
    · simp at h

theorem stepStatuses_evA (f : Bool) (s : String) :
    stepStatuses (evA f) s =
      if ("query_analysis" == s) then
        [IStatus.running, if f then IStatus.error else IStatus.done]
      else [] := by
  by_cases hs : ("query_analysis" == s) = true <;>
    simp [evA, stepStatuses, stepF, List.filterMap_cons, hs]

theorem stepStatuses_evB (he ok : Bool) (s : String) :
    stepStatuses (evB he ok) s =
      if ("entity_intel" == s) then
        (if he then [IStatus.running, if ok then IStatus.done else IStatus.error]
         else [IStatus.done])
      else [] := by
  cases he <;> by_cases hs : ("entity_intel" == s) = true <;>
    simp [evB, stepStatuses, stepF, List.filterMap_cons, hs]

theorem stepStatuses_evC (fd ok : Bool) (s : String) :
    stepStatuses (evC fd ok) s =
      if ("graph_traversal" == s) then
        (if fd then [IStatus.running, if ok then IStatus.done else IStatus.error]
         else [IStatus.done])
      else [] := by
  cases fd <;> by_cases hs : ("graph_traversal" == s) = true <;>
    simp [evC, stepStatuses, stepF, List.filterMap_cons, hs]

theorem stepStatuses_evD (d : Bool) (s : String) :
    stepStatuses (evD d) s =
      if ("semantic_search" == s) then
        [IStatus.running, IStatus.running, IStatus.running,
         if d then IStatus.error else IStatus.done]
      else [] := by
  by_cases hs : ("semantic_search" == s) = true <;>
    simp [evD, stepStatuses, stepF, List.filterMap_cons, hs]

theorem stepStatuses_evE (k : Bool) (s : String) :
    stepStatuses (evE k) s =
      if ("keyword_search" == s) then
        [IStatus.running, if k then IStatus.error else IStatus.done]
      else [] := by
  by_cases hs : ("keyword_search" == s) = true <;>
    simp [evE, stepStatuses, stepF, List.filterMap_cons, hs]

theorem stepStatuses_evF (noCtx modeWeb : Bool) (texts : List String)
    (synthErr : Option String) (webEmpty followOk : Bool) (s : String) :
    stepStatuses (evF noCtx modeWeb texts synthErr webEmpty followOk) s =
      (if ("synthesis" == s) then
        [IStatus.running,
         if noCtx then IStatus.done
         else match synthErr with
           | some _ => IStatus.error
           | none => IStatus.done]
       else [])
      ++ (if ("web_search" == s) && !noCtx && modeWeb then
            [IStatus.running, IStatus.done]
          else []) := by
  cases noCtx <;> cases modeWeb <;> cases synthErr <;> cases webEmpty <;>
    cases followOk <;>
    by_cases h1 : ("synthesis" == s) = true <;>
    by_cases h2 : ("web_search" == s) = true <;>
    first
      | exact absurd ((eq_of_beq h1).trans (eq_of_beq h2).symm) (by decide)
      | simp [evF, stepStatuses, stepF, List.filterMap_cons, List.filterMap_append,
          filterMap_stepF_textMap, h1, h2]

/-- C1 (amended): in every run the terminal `done` event is emitted exactly
once and last — also when the pipeline crashes at the outermost boundary.
In a crash-free run, each step's `step_status` sequence is zero or more
`running` followed by exactly one `done` or `error`; but not "exactly one
`running`": `semantic_search` emits three `running` (two heartbeats) and a
skipped `entity_intel`/`graph_traversal` emits `done` with no `running`
at all — see the counterexample. -/
theorem run_investigation_events (w : InvWorld) (q m : String) :
    (run_investigation w q m).events.getLast? = some IEvent.done
  ∧ (run_investigation w q m).events.count IEvent.done = 1
  ∧ (w.crash = none →
      ∀ s, okSeq (stepStatuses (run_investigation w q m).events s)) := by
  obtain ⟨pre, hpre, hnm⟩ := run_shape w q m
  refine ⟨?_, ?_, ?_⟩
  · rw [hpre]
    exact List.getLast?_concat _
  · rw [hpre, List.count_append]
    rw [List.count_eq_zero.mpr hnm]
    simp
  · intro hcr s
    have hrun : run_investigation w q m = _run_investigation_inner w q m := by
      unfold run_investigation
      rw [hcr]
    rw [hrun, inner_events_eq]
    rw [stepStatuses_append, stepStatuses_append, stepStatuses_append,
      stepStatuses_append, stepStatuses_append]
    rw [stepStatuses_evA, stepStatuses_evB, stepStatuses_evC, stepStatuses_evD,
      stepStatuses_evE, stepStatuses_evF]
    by_cases h1 : ("query_analysis" == s) = true
    · obtain rfl := eq_of_beq h1
      cases (innerCore w q).aFailed
      · exact Or.inr ⟨1, IStatus.done, Or.inl rfl, rfl⟩
      · exact Or.inr ⟨1, IStatus.error, Or.inr rfl, rfl⟩
    by_cases h2 : ("entity_intel" == s) = true
    · obtain rfl := eq_of_beq h2
      cases ((innerCore w q).primary != "")
      · exact Or.inr ⟨0, IStatus.done, Or.inl rfl, rfl⟩
      · cases (innerCore w q).intelOk
        · exact Or.inr ⟨1, IStatus.error, Or.inr rfl, rfl⟩
        · exact Or.inr ⟨1, IStatus.done, Or.inl rfl, rfl⟩
    by_cases h3 : ("graph_traversal" == s) = true
    · obtain rfl := eq_of_beq h3
      cases (innerCore w q).intelFound
      · exact Or.inr ⟨0, IStatus.done, Or.inl rfl, rfl⟩
      · cases (innerCore w q).bfsOk
        · exact Or.inr ⟨1, IStatus.error, Or.inr rfl, rfl⟩
        · exact Or.inr ⟨1, IStatus.done, Or.inl rfl, rfl⟩
    by_cases h4 : ("semantic_search" == s) = true
    · obtain rfl := eq_of_beq h4
      cases (innerCore w q).dFailed
      · exact Or.inr ⟨3, IStatus.done, Or.inl rfl, rfl⟩
      · exact Or.inr ⟨3, IStatus.error, Or.inr rfl, rfl⟩
    by_cases h5 : ("keyword_search" == s) = true
    · obtain rfl := eq_of_beq h5
      cases (innerCore w q).kwFailed
      · exact Or.inr ⟨1, IStatus.done, Or.inl rfl, rfl⟩
      · exact Or.inr ⟨1, IStatus.error, Or.inr rfl, rfl⟩
    by_cases h6 : ("synthesis" == s) = true
    · obtain rfl := eq_of_beq h6
      cases ((⟨pyStripL (innerFullContext w (innerCore w q)).data⟩ : String) == "")
      · cases w.synthesisErr
        · exact Or.inr ⟨1, IStatus.done, Or.inl rfl, rfl⟩
        · exact Or.inr ⟨1, IStatus.error, Or.inr rfl, rfl⟩
      · exact Or.inr ⟨1, IStatus.done, Or.inl rfl, rfl⟩
    by_cases h7 : ("web_search" == s) = true
    · obtain rfl := eq_of_beq h7
      cases ((⟨pyStripL (innerFullContext w (innerCore w q)).data⟩ : String) == "")
      · cases (m == "files_web")
        · exact Or.inl rfl
        · exact Or.inr ⟨1, IStatus.done, Or.inl rfl, rfl⟩
      · exact Or.inl rfl
    · simp [h1, h2, h3, h4, h5, h6, h7]
      exact Or.inl rfl

def cwAnalysis : AnalysisRes :=
  { primary_entity := "", secondary_entities := [],
    key_terms := ["q"], reformulated_queries := [] }

def cwChunk : IChunk :=
  { text := "some finding", filename := "f.pdf", page := "1" }

/-- A fully healthy oracle world for a query with no named entity: one
document chunk is found and the report streams normally. -/
def cwHealthy : InvWorld :=
  { analysis := .ok cwAnalysis,
    intel := .error "unused",
    graphEv := .error "unused",
    pass1 := .ok [cwChunk],
    pass2 := .ok [],
    pass3 := .ok [],
    kwPass := [],
    hasSupabase := false,
    kwEdges := .error "unused",
    synthesisChunks := ["report text"],
    synthesisErr := none,
    webSources := [],
    followUps := .ok none,
    crash := none }

/-- C1 is refuted as stated: even in a healthy run, `semantic_search` emits
three `running` events (two heartbeats) before its single `done`, and the
skipped `entity_intel` and `graph_traversal` steps emit `done` with no
preceding `running`. -/
theorem run_investigation_events_counterexample :
    stepStatuses (run_investigation cwHealthy "q" "files_only").events
        "semantic_search"
      = [IStatus.running, IStatus.running, IStatus.running, IStatus.done]
    ∧ stepStatuses (run_investigation cwHealthy "q" "files_only").events
        "entity_intel"
      = [IStatus.done] := by
  refine ⟨by decide, by decide⟩

theorem run_investigation_events_witness :
    (run_investigation cwHealthy "q" "files_only").events.getLast?
        = some IEvent.done
    ∧ (run_investigation cwHealthy "q" "files_only").events.count IEvent.done = 1
    ∧ okSeq (stepStatuses (run_investigation cwHealthy "q" "files_only").events
        "synthesis") :=
  ⟨(run_investigation_events cwHealthy "q" "files_only").1,
   (run_investigation_events cwHealthy "q" "files_only").2.1,
   (run_investigation_events cwHealthy "q" "files_only").2.2 rfl "synthesis"⟩

/-! ## C2: the no-evidence early return -/

/-- C2 (amended): when no evidence was accumulated in any phase AND no phase
logged an error, the synthesis phase emits the single explanatory text event
followed by its `done` status and the terminal `done`, with no call to the
generation model (nor to the follow-up model).  When a phase did log an
error, the DATA GAPS trailer makes the context non-empty and the model is
called with zero evidence — see the counterexample. -/
theorem synthesis_no_evidence (w : InvWorld) (q m : String)
    (hp : (_run_investigation_inner w q m).pool = [])
    (hg : (_run_investigation_inner w q m).graphEvidence = [])
    (hi : (_run_investigation_inner w q m).intelFound = false)
    (hk : (_run_investigation_inner w q m).kwResults = [])
    (he : (_run_investigation_inner w q m).errorsLog = [])
    (hcr : w.crash = none) :
    (∃ pre, (run_investigation w q m).events
        = pre ++ [IEvent.text noInfoMsg, IEvent.step "synthesis" IStatus.done,
            IEvent.done]
      ∧ ∀ t, IEvent.text t ∉ pre)
    ∧ ExtCall.genStream ∉ (run_investigation w q m).calls
    ∧ ExtCall.followUpCall ∉ (run_investigation w q m).calls := by
  have hrun : run_investigation w q m = _run_investigation_inner w q m := by
    unfold run_investigation
    rw [hcr]
  have hp' : (innerCore w q).pool = [] := hp
  have hg' : (innerCore w q).graphEvidence = [] := hg
  have hi' : (innerCore w q).intelFound = false := hi
  have hk' : (innerCore w q).kwResults = [] := hk
  have he' : (innerCore w q).errorsLog = [] := he
  have hparts : innerContextParts w (innerCore w q) = [] := by
    unfold innerContextParts
    rw [hp', hg', hi', hk']
    simp
  have hctx : innerFullContext w (innerCore w q) = "" := by
    unfold innerFullContext
    rw [hparts, he']
    rfl
  have hnc : ((⟨pyStripL (innerFullContext w (innerCore w q)).data⟩ : String) == "")
      = true := by
    rw [hctx]
    decide
  refine ⟨?_, ?_, ?_⟩
  · rw [hrun, inner_events_eq, hnc]
    refine ⟨evA (innerCore w q).aFailed
      ++ evB ((innerCore w q).primary != "") (innerCore w q).intelOk
      ++ evC (innerCore w q).intelFound (innerCore w q).bfsOk
      ++ evD (innerCore w q).dFailed ++ evE (innerCore w q).kwFailed
      ++ [IEvent.step "synthesis" IStatus.running], ?_, ?_⟩
    · simp [evF, List.append_assoc]
    · intro t hm
      simp only [List.mem_append] at hm
      rcases hm with ((((h | h) | h) | h) | h) | h
      · cases (innerCore w q).aFailed <;> simp [evA] at h
      · revert h
        cases ((innerCore w q).primary != "") <;>
          cases (innerCore w q).intelOk <;> simp [evB]
      · revert h
        cases (innerCore w q).intelFound <;>
          cases (innerCore w q).bfsOk <;> simp [evC]
      · cases (innerCore w q).dFailed <;> simp [evD] at h
      · cases (innerCore w q).kwFailed <;> simp [evE] at h
      · simp at h
  · rw [hrun, inner_calls_eq, hnc]
    simp only [innerCalls]
    cases ((innerCore w q).primary != "") <;>
      cases (innerCore w q).intelFound <;>
      cases (innerCore w q).runP2 <;>
      cases (innerCore w q).runP3 <;>
      cases (innerCore w q).doKw <;>
      simp
  · rw [hrun, inner_calls_eq, hnc]
    simp only [innerCalls]
    cases ((innerCore w q).primary != "") <;>
      cases (innerCore w q).intelFound <;>
      cases (innerCore w q).runP2 <;>
      cases (innerCore w q).runP3 <;>
      cases (innerCore w q).doKw <;>
      simp

/-- A world where query analysis and the one semantic pass both throw: no
evidence is accumulated, but `errors_log` is non-empty. -/
def cwBad : InvWorld :=
  { analysis := .error "TimeoutError",
    intel := .error "unused",
    graphEv := .error "unused",
    pass1 := .error "APIError",
    pass2 := .error "unused",
    pass3 := .error "unused",
    kwPass := [],
    hasSupabase := false,
    kwEdges := .error "unused",
    synthesisChunks := ["report text"],
    synthesisErr := none,
    webSources := [],
    followUps := .ok none,
    crash := none }

/-- C2 is refuted as stated: with zero evidence of every kind but a
non-empty error log, the DATA GAPS trailer makes the synthesis context
non-empty, so the generation model is called anyway. -/
theorem synthesis_no_evidence_counterexample :
    (_run_investigation_inner cwBad "q" "files_only").pool = []
    ∧ (_run_investigation_inner cwBad "q" "files_only").graphEvidence = []
    ∧ (_run_investigation_inner cwBad "q" "files_only").intelFound = false
    ∧ (_run_investigation_inner cwBad "q" "files_only").kwResults = []
    ∧ ExtCall.genStream ∈ (run_investigation cwBad "q" "files_only").calls := by
  refine ⟨by decide, by decide, by decide, by decide, by decide⟩

/-- A world where every phase succeeds but finds nothing. -/
def cwQuiet : InvWorld :=
  { analysis := .ok cwAnalysis,
    intel := .error "unused",
    graphEv := .error "unused",
    pass1 := .ok [],
    pass2 := .ok [],
    pass3 := .ok [],
    kwPass := [],
    hasSupabase := false,
    kwEdges := .error "unused",
    synthesisChunks := ["report text"],
    synthesisErr := none,
    webSources := [],
    followUps := .ok none,
    crash := none }

theorem synthesis_no_evidence_witness :
    ((_run_investigation_inner cwQuiet "q" "files_only").pool = []
      ∧ (_run_investigation_inner cwQuiet "q" "files_only").errorsLog = [])
    ∧ ExtCall.genStream ∉ (run_investigation cwQuiet "q" "files_only").calls :=
  ⟨⟨by decide, by decide⟩,
   (synthesis_no_evidence cwQuiet "q" "files_only" (by decide) (by decide)
      (by decide) (by decide) (by decide) rfl).2.1⟩

end LocalWebb
